import Mathlib

set_option maxRecDepth 100000

/-!
Verification of the blog build pipeline (`scripts/build-posts.js` and
`scripts/generate-pages.js`).

The JavaScript source is shallowly embedded: strings are Lean `String`s
(manipulated through their underlying `List Char`), the filesystem is an
association list from path to file text, and the two build commands become
pure functions.  JavaScript-specific behaviour that the scripts rely on is
modelled explicitly:

* `Array.prototype.sort` (stable for the comparators used here) is modelled
  by stable insertion sort;
* `String.prototype.trim` by `jsTrim`;
* the truthiness test `x || d` on strings by `jsOr` (empty string counts as
  absent);
* `new Date(s)` comparison is modelled on strict `YYYY-MM-DD` calendar dates
  via `parseDateKey`; strings outside that shape compare as equal (mirroring
  the `NaN` comparator result, which leaves relative order unchanged);
* `String.prototype.replace` including its `$&`/`$'`-style replacement
  patterns by `expandRepl`;
* `JSON.stringify(·, null, 2)` and `JSON.parse` restricted to the fixed
  shape of the post list by a character-level printer and reader.
-/

/-! ### Character-list utilities -/

/-- Whitespace for the purposes of JavaScript `String.prototype.trim`. -/
def isJsSpace (c : Char) : Bool :=
  c == ' ' || c == '\t' || c == '\n' || c == '\r' ||
  c.toNat == 11 || c.toNat == 12 || c.toNat == 0xa0 || c.toNat == 0xfeff ||
  c.toNat == 0x2028 || c.toNat == 0x2029

/-- Trim `isJsSpace` characters from both ends of a character list. -/
def trimChars (l : List Char) : List Char :=
  ((l.dropWhile isJsSpace).reverse.dropWhile isJsSpace).reverse

/-- JavaScript `s.trim()`. -/
def jsTrim (s : String) : String := String.mk (trimChars s.data)

/-- Split a character list at every occurrence of `sep`, keeping empty
pieces, as JavaScript `s.split(sep)` does for a single-character separator. -/
def splitChar (sep : Char) : List Char → List (List Char)
  | [] => [[]]
  | c :: rest =>
    if c = sep then [] :: splitChar sep rest
    else
      match splitChar sep rest with
      | [] => [[c]]
      | h :: t => (c :: h) :: t

/-- Join character lists with the separator `sep` (JavaScript `parts.join(sep)`). -/
def joinChar (sep : Char) : List (List Char) → List Char
  | [] => []
  | [p] => p
  | p :: rest => p ++ sep :: joinChar sep rest

/-- JavaScript `content.split('\n')`. -/
def jsSplitLines (s : String) : List String := (splitChar '\n' s.data).map String.mk

/-- JavaScript `lines.join('\n')`. -/
def joinNl (lines : List String) : String :=
  String.mk (joinChar '\n' (lines.map String.data))

/-! ### The frontmatter parser (`parseFrontmatter` in `build-posts.js`) -/

/-- One application of the regex alternative `^["']`: drop a single leading
single or double quote if present. -/
def dropLeadQuote : List Char → List Char
  | [] => []
  | c :: rest => if c = '"' || c = '\x27' then rest else c :: rest

/-- JavaScript `value.replace(/^["']|["']$/g, '')`: one leading quote
character and one trailing quote character are removed independently. -/
def stripQuotesChars (l : List Char) : List Char :=
  (dropLeadQuote (dropLeadQuote l).reverse).reverse

/-- Process one metadata line: split on `:`; skip the line when it has no
colon or its raw key part is the empty string; otherwise trim the key, and
trim and quote-strip the value (the value parts are rejoined with `:`). -/
def parseLine (line : String) : Option (String × String) :=
  match splitChar ':' line.data with
  | [] => none
  | [_] => none
  | k :: rest =>
    if k = [] then none
    else some (String.mk (trimChars k),
               String.mk (stripQuotesChars (trimChars (joinChar ':' rest))))

/-- JavaScript object insertion `frontmatter[key] = value`: an existing key
is overwritten in place, a new key is appended. -/
def fmInsert (m : List (String × String)) (k v : String) : List (String × String) :=
  if m.any (fun p => decide (p.1 = k)) then
    m.map (fun p => if p.1 = k then (k, v) else p)
  else m ++ [(k, v)]

/-- One iteration of the `frontmatterLines.forEach` loop. -/
def fmStep (m : List (String × String)) (line : String) : List (String × String) :=
  match parseLine line with
  | some (k, v) => fmInsert m k v
  | none => m

/-- Fold the metadata lines into the frontmatter mapping. -/
def buildFM (metaLines : List String) : List (String × String) :=
  metaLines.foldl fmStep []

/-- JavaScript object property access `frontmatter[k]`. -/
def fmLookup : List (String × String) → String → Option String
  | [], _ => none
  | (k2, v) :: rest, k => if k2 = k then some v else fmLookup rest k

/-- The loop `for (i = 1; ...) if (lines[i] === '---')`: split the lines
after the opening delimiter at the first later `---`, or `none` if there is
no such line. -/
def splitAtDelim : List String → Option (List String × List String)
  | [] => none
  | l :: ls =>
    if l = "---" then some ([], ls)
    else
      match splitAtDelim ls with
      | none => none
      | some (pre, rest) => some (l :: pre, rest)

/-- `parseFrontmatter` from `build-posts.js`: returns the metadata mapping
and the body.  When the first line is not `---`, or no closing `---` exists,
the mapping is empty and the body is the unmodified input. -/
def parseFrontmatter (fileText : String) : List (String × String) × String :=
  match jsSplitLines fileText with
  | [] => ([], fileText)
  | first :: rest =>
    if first = "---" then
      match splitAtDelim rest with
      | none => ([], fileText)
      | some (metaLines, bodyLines) =>
        (buildFM metaLines, jsTrim (joinNl bodyLines))
    else ([], fileText)

/-! ### The post collector (`buildPosts` in `build-posts.js`) -/

structure Post where
  slug : String
  title : String
  date : String
  excerpt : String
  content : String
  frontmatter : List (String × String)
deriving DecidableEq, Repr

/-- JavaScript `file.endsWith('.md')`. -/
def endsWithMd (s : String) : Bool := ".md".data.isSuffixOf s.data

/-- Node `path.basename(file, '.md')` for a plain file name: when the name
equals the suffix the result is the empty string (the `suffix === path`
early return); otherwise a trailing `.md` is removed. -/
def basenameMd (file : String) : String :=
  if file = ".md" then ""
  else if endsWithMd file then String.mk (file.data.take (file.data.length - 3))
  else file

/-- JavaScript `v || d` where `v` is a string-or-undefined: the default is
taken when the field is absent or the empty string (falsy). -/
def jsOr (v : Option String) (d : String) : String :=
  match v with
  | some s => if s = "" then d else s
  | none => d

/-- Build one post record (the body of the `files.map` callback). -/
def mkPost (file : String) (fileText : String) (buildDate : String) : Post :=
  let pr := parseFrontmatter fileText
  let fm := pr.1
  let body := pr.2
  let slug := basenameMd file
  { slug := slug
    title := jsOr (fmLookup fm "title") slug
    date := jsOr (fmLookup fm "date") buildDate
    excerpt := jsOr (fmLookup fm "excerpt")
      (String.mk (((jsSplitLines body).headD "").data.take 120) ++ "...")
    content := body
    frontmatter := fm }

/-- Value of a decimal digit character. -/
def digitVal (c : Char) : Option Nat :=
  if 48 ≤ c.toNat && c.toNat ≤ 57 then some (c.toNat - 48) else none

def isLeapYear (y : Nat) : Bool := (y % 4 == 0 && y % 100 != 0) || y % 400 == 0

def daysInMonth (y m : Nat) : Nat :=
  if m = 2 then (if isLeapYear y then 29 else 28)
  else if m = 4 || m = 6 || m = 9 || m = 11 then 30
  else 31

/-- Key of a strict `YYYY-MM-DD` calendar date, ordered like the timestamp
`new Date(s)` assigns to it; `none` for strings outside that shape. -/
def parseDateKey (s : String) : Option Nat :=
  match s.data with
  | [y1, y2, y3, y4, h1, m1, m2, h2, d1, d2] =>
    if h1 = '-' && h2 = '-' then
      match digitVal y1, digitVal y2, digitVal y3, digitVal y4,
            digitVal m1, digitVal m2, digitVal d1, digitVal d2 with
      | some a, some b, some c, some d, some e, some f, some g, some h =>
        let y := 1000 * a + 100 * b + 10 * c + d
        let mo := 10 * e + f
        let da := 10 * g + h
        if 1 ≤ mo && mo ≤ 12 && 1 ≤ da && da ≤ daysInMonth y mo then
          some (y * 10000 + mo * 100 + da)
        else none
      | _, _, _, _, _, _, _, _ => none
    else none
  | _ => none

/-- The comparator `(a, b) => new Date(b.date) - new Date(a.date)` as a
"may come first" test: `a` may precede `b` iff the comparator is `≤ 0`.
When either date is unparseable the comparator yields `NaN`, which the sort
treats like `0` (order unchanged), so both directions are allowed. -/
def dateLeB (a b : Post) : Bool :=
  match parseDateKey a.date, parseDateKey b.date with
  | some x, some y => decide (y ≤ x)
  | _, _ => true

/-- Code-point comparison of file names (JavaScript default `sort()`). -/
def chLe : List Char → List Char → Bool
  | [], _ => true
  | _ :: _, [] => false
  | a :: as, b :: bs =>
    if a.toNat < b.toNat then true
    else if b.toNat < a.toNat then false
    else chLe as bs

def nameLe (a b : String) : Bool := chLe a.data b.data

/-- `files.sort()`: stable sort of the file names. -/
def sortFileNames (names : List String) : List String :=
  List.insertionSort (fun a b => nameLe a b = true) names

/-- `posts.sort((a, b) => new Date(b.date) - new Date(a.date))`. -/
def sortByDateDesc (posts : List Post) : List Post :=
  List.insertionSort (fun a b => dateLeB a b = true) posts

/-- `fs.readFileSync` over the modelled directory. -/
def lookupFs : List (String × String) → String → Option String
  | [], _ => none
  | (k2, v) :: rest, k => if k2 = k then some v else lookupFs rest k

/-- The pure core of `buildPosts`: list the directory, keep `.md` files,
sort the names, read and parse each file, and sort the records by date
descending. -/
def collectPosts (dir : List (String × String)) (buildDate : String) : List Post :=
  let names := (dir.map Prod.fst).filter endsWithMd
  let sortedNames := sortFileNames names
  sortByDateDesc
    (sortedNames.filterMap (fun n => (lookupFs dir n).map (fun c => mkPost n c buildDate)))

/-! ### Substring search (first-occurrence semantics of regex / `replace`) -/

/-- `pat` occurs as a contiguous substring of `l`. -/
def Occurs (pat l : List Char) : Prop := ∃ x y, l = x ++ pat ++ y

/-- Executable substring test. -/
def hasSub (pat : List Char) : List Char → Bool
  | [] => pat.isEmpty
  | l@(_ :: rest) => pat.isPrefixOf l || hasSub pat rest

/-- Lists in which `]` never immediately follows a newline and that do not
end in a newline; concatenations of such lists contain no `"\n]"`. -/
def nlSafe (l : List Char) : Prop :=
  ¬ Occurs ['\n', ']'] l ∧ l.getLast? ≠ some '\n'

/-- Split `l` at the first occurrence of `pat`: `some (before, after)` with
`l = before ++ pat ++ after`, or `none` when `pat` does not occur. -/
def splitOnFirst (pat : List Char) : List Char → Option (List Char × List Char)
  | [] => none
  | l@(c :: rest) =>
    if pat.isPrefixOf l then some ([], l.drop pat.length)
    else
      match splitOnFirst pat rest with
      | none => none
      | some (a, b) => some (c :: a, b)

/-! ### The data emitter (`JSON.stringify(posts, null, 2)` embedded in the
generated `posts.js` module) -/

/-- Lowercase hexadecimal digit. -/
def hexDigitChar (n : Nat) : Char :=
  if n < 10 then Char.ofNat (48 + n) else Char.ofNat (87 + n)

/-- `JSON.stringify` escaping of one character. -/
def escChar (c : Char) : List Char :=
  if c = '"' then ['\\', '"']
  else if c = '\\' then ['\\', '\\']
  else if c = '\n' then ['\\', 'n']
  else if c = '\r' then ['\\', 'r']
  else if c = '\t' then ['\\', 't']
  else if c = '\x08' then ['\\', 'b']
  else if c = '\x0c' then ['\\', 'f']
  else if c.toNat < 32 then
    ['\\', 'u', '0', '0', hexDigitChar (c.toNat / 16), hexDigitChar (c.toNat % 16)]
  else [c]

def escList : List Char → List Char
  | [] => []
  | c :: rest => escChar c ++ escList rest

/-- A JSON string literal. -/
def renderStr (s : String) : List Char := '"' :: escList s.data ++ ['"']

def renderFMEntry (kv : String × String) : List Char :=
  "      ".data ++ renderStr kv.1 ++ ": ".data ++ renderStr kv.2

def renderFMEntries : List (String × String) → List Char
  | [] => []
  | [e] => renderFMEntry e
  | e :: rest => renderFMEntry e ++ ",\n".data ++ renderFMEntries rest

/-- The `frontmatter` object at depth 2 of the indented stringify output. -/
def renderFM (fm : List (String × String)) : List Char :=
  match fm with
  | [] => "\x7b\x7d".data
  | _ => "\x7b\n".data ++ renderFMEntries fm ++ "\n    \x7d".data

def postHead : List Char := "  \x7b\n    \"slug\": ".data

/-- One post object at depth 1 of the indented stringify output. -/
def renderPost (p : Post) : List Char :=
  postHead ++ renderStr p.slug ++
  ",\n    \"title\": ".data ++ renderStr p.title ++
  ",\n    \"date\": ".data ++ renderStr p.date ++
  ",\n    \"excerpt\": ".data ++ renderStr p.excerpt ++
  ",\n    \"content\": ".data ++ renderStr p.content ++
  ",\n    \"frontmatter\": ".data ++ renderFM p.frontmatter ++
  "\n  \x7d".data

def renderPostsItems : List Post → List Char
  | [] => []
  | [p] => renderPost p
  | p :: rest => renderPost p ++ ",\n".data ++ renderPostsItems rest

/-- `JSON.stringify(posts, null, 2)`. -/
def renderPosts (ps : List Post) : List Char :=
  match ps with
  | [] => "[]".data
  | _ => "[\n".data ++ renderPostsItems ps ++ "\n]".data

def moduleHeader : List Char :=
  "// Auto-generated file - do not edit manually\n// Run \x27npm run build-posts\x27 to regenerate\n\n".data

def postsMarker : List Char := "export const posts = ".data

def moduleFooter : List Char :=
  "\n\nexport function getPost(slug) \x7b\n  return posts.find(post => post.slug === slug)\n\x7d\n\nexport function getAllPosts() \x7b\n  return posts\n\x7d\n".data

/-- The full text of the generated `src/utils/posts.js`. -/
def emitPostsModule (ps : List Post) : String :=
  String.mk (moduleHeader ++ postsMarker ++ renderPosts ps ++ moduleFooter)

/-- The whole `build-posts` command: collect the posts and serialize them. -/
def buildPostsRun (dir : List (String × String)) (buildDate : String) : String :=
  emitPostsModule (collectPosts dir buildDate)

/-! ### The page generator side: `getPosts` (regex extraction + `JSON.parse`)
from `generate-pages.js` -/

def hexVal (c : Char) : Option Nat :=
  if 48 ≤ c.toNat && c.toNat ≤ 57 then some (c.toNat - 48)
  else if 97 ≤ c.toNat && c.toNat ≤ 102 then some (c.toNat - 87)
  else if 65 ≤ c.toNat && c.toNat ≤ 70 then some (c.toNat - 55)
  else none

/-- JSON single-character escape codes. -/
def unescCode (c : Char) : Option Char :=
  if c = '"' then some '"'
  else if c = '\\' then some '\\'
  else if c = '/' then some '/'
  else if c = 'n' then some '\n'
  else if c = 't' then some '\t'
  else if c = 'r' then some '\r'
  else if c = 'b' then some '\x08'
  else if c = 'f' then some '\x0c'
  else none

/-- Body of a JSON string literal after the opening quote (fuel-driven so
that it reduces structurally; every step consumes at least one character,
so fuel equal to the input length always suffices): returns the decoded
characters and the remainder after the closing quote. -/
def parseStrBodyAux : Nat → List Char → Option (List Char × List Char)
  | 0, _ => none
  | _ + 1, [] => none
  | fuel + 1, c :: rest =>
    if c = '"' then some ([], rest)
    else if c = '\\' then
      match rest with
      | [] => none
      | e :: rest2 =>
        if e = 'u' then
          match rest2 with
          | h1 :: h2 :: h3 :: h4 :: rest3 =>
            match hexVal h1, hexVal h2, hexVal h3, hexVal h4 with
            | some a, some b, some x, some y =>
              (parseStrBodyAux fuel rest3).map
                (fun pr => (Char.ofNat (4096 * a + 256 * b + 16 * x + y) :: pr.1, pr.2))
            | _, _, _, _ => none
          | _ => none
        else
          match unescCode e with
          | none => none
          | some c2 => (parseStrBodyAux fuel rest2).map (fun pr => (c2 :: pr.1, pr.2))
    else (parseStrBodyAux fuel rest).map (fun pr => (c :: pr.1, pr.2))

def parseStrBody (l : List Char) : Option (List Char × List Char) :=
  parseStrBodyAux l.length l

/-- A JSON string literal. -/
def parseJStr (l : List Char) : Option (String × List Char) :=
  match l with
  | '"' :: rest =>
    match parseStrBody rest with
    | none => none
    | some (s, r) => some (String.mk s, r)
  | _ => none

/-- Consume an expected literal chunk. -/
def stripLit : List Char → List Char → Option (List Char)
  | [], l => some l
  | _ :: _, [] => none
  | a :: as, b :: bs => if a = b then stripLit as bs else none

def parseFMEntriesAux : Nat → List Char → Option (List (String × String) × List Char)
  | 0, _ => none
  | fuel + 1, l => do
    let l1 ← stripLit "      ".data l
    let (k, l2) ← parseJStr l1
    let l3 ← stripLit ": ".data l2
    let (v, l4) ← parseJStr l3
    match stripLit ",\n".data l4 with
    | some l5 =>
      match parseFMEntriesAux fuel l5 with
      | none => none
      | some (es, r) => some ((k, v) :: es, r)
    | none =>
      match stripLit "\n    \x7d".data l4 with
      | some l5 => some ([(k, v)], l5)
      | none => none

/-- The `frontmatter` object as printed by `renderFM`. -/
def parseFM (l : List Char) : Option (List (String × String) × List Char) :=
  match stripLit "\x7b\x7d".data l with
  | some rest => some ([], rest)
  | none =>
    match stripLit "\x7b\n".data l with
    | none => none
    | some l1 => parseFMEntriesAux l1.length l1

/-- One post object as printed by `renderPost`. -/
def parsePost (l : List Char) : Option (Post × List Char) := do
  let l1 ← stripLit postHead l
  let (slug, l2) ← parseJStr l1
  let l3 ← stripLit ",\n    \"title\": ".data l2
  let (title, l4) ← parseJStr l3
  let l5 ← stripLit ",\n    \"date\": ".data l4
  let (date, l6) ← parseJStr l5
  let l7 ← stripLit ",\n    \"excerpt\": ".data l6
  let (excerpt, l8) ← parseJStr l7
  let l9 ← stripLit ",\n    \"content\": ".data l8
  let (body, l10) ← parseJStr l9
  let l11 ← stripLit ",\n    \"frontmatter\": ".data l10
  let (fm, l12) ← parseFM l11
  let l13 ← stripLit "\n  \x7d".data l12
  pure (⟨slug, title, date, excerpt, body, fm⟩, l13)

def parseItemsAux : Nat → List Char → Option (List Post × List Char)
  | 0, _ => none
  | fuel + 1, l =>
    match parsePost l with
    | none => none
    | some (p, rest) =>
      match stripLit ",\n".data rest with
      | some rest2 =>
        match parseItemsAux fuel rest2 with
        | none => none
        | some (ps, r) => some (p :: ps, r)
      | none =>
        match stripLit "\n]".data rest with
        | some rest2 => some ([p], rest2)
        | none => none

/-- The posts array as printed by `renderPosts`. -/
def parsePosts (l : List Char) : Option (List Post × List Char) :=
  match stripLit "[]".data l with
  | some rest => some ([], rest)
  | none =>
    match stripLit "[\n".data l with
    | none => none
    | some l1 => parseItemsAux l1.length l1

/-- `getPosts` from `generate-pages.js`: find `export const posts = `, take
the bracketed text lazily up to the first line-initial `]` (the regex
`(\[[\s\S]*?\n\])`), and `JSON.parse` it. -/
def getPostsFromModule (txt : String) : Option (List Post) :=
  match splitOnFirst postsMarker txt.data with
  | none => none
  | some (_, rest) =>
    match splitOnFirst ['\n', ']'] rest with
    | none => none
    | some (body, _) =>
      match parsePosts (body ++ ['\n', ']']) with
      | some (ps, []) => some ps
      | _ => none

/-- `getPost` of the generated module: `posts.find(post => post.slug === slug)`. -/
def findBySlug (ps : List Post) (slug : String) : Option Post :=
  ps.find? (fun p => decide (p.slug = slug))

/-! ### The page generator (`createHtmlPage`, `generatePages`) -/

/-- The opening title tag sought by the regex `/<title>.*?<\/title>/`. -/
def titleOpen : List Char := "<title>".data

/-- The closing title tag. -/
def titleClose : List Char := "</title>".data

/-- The closing head marker targeted by `html.replace('</head>', ...)`. -/
def headClose : List Char := "</head>".data

/-- Lazy scan for the title-tag body: consume characters (none may be a
newline, since `.` does not match newlines) until `</title>` follows. -/
def scanTitleInner : List Char → Option (List Char × List Char)
  | [] => none
  | c :: rest =>
    if titleClose.isPrefixOf (c :: rest) then some ([], (c :: rest).drop 8)
    else if c = '\n' then none
    else
      match scanTitleInner rest with
      | none => none
      | some (inner, after) => some (c :: inner, after)

/-- Try to match `/<title>.*?<\/title>/` at the start of `l`. -/
def matchTitleAt (l : List Char) : Option (List Char × List Char) :=
  if titleOpen.isPrefixOf l then scanTitleInner (l.drop 7) else none

/-- First match of `/<title>.*?<\/title>/`: `some (pre, inner, after)` where
the match is `<title>inner</title>` and `l = pre ++ match ++ after`. -/
def findTitle : List Char → Option (List Char × List Char × List Char)
  | [] => none
  | c :: rest =>
    match matchTitleAt (c :: rest) with
    | some (inner, after) => some ([], inner, after)
    | none =>
      match findTitle rest with
      | none => none
      | some (pre, inner, after) => some (c :: pre, inner, after)

/-- JavaScript `GetSubstitution`: expand `$$`, `$&` (the match), `` $` ``
(the text before the match) and `$'` (the text after the match) in a string
replacement; any other `$` is literal. -/
def expandRepl (matched before after : List Char) : List Char → List Char
  | [] => []
  | [c] => [c]
  | c :: c2 :: rest =>
    if c = '$' then
      if c2 = '$' then '$' :: expandRepl matched before after rest
      else if c2 = '&' then matched ++ expandRepl matched before after rest
      else if c2.toNat = 96 then before ++ expandRepl matched before after rest
      else if c2.toNat = 39 then after ++ expandRepl matched before after rest
      else '$' :: expandRepl matched before after (c2 :: rest)
    else c :: expandRepl matched before after (c2 :: rest)

/-- A replacement string free of special `$` patterns: `expandRepl` leaves
it untouched. -/
def replPatFree : List Char → Bool
  | [] => true
  | [_] => true
  | c :: c2 :: rest =>
    if c = '$' then
      !(c2 == '$' || c2 == '&' || c2.toNat == 96 || c2.toNat == 39) && replPatFree (c2 :: rest)
    else replPatFree (c2 :: rest)

/-- `html.replace(stringPattern, repl)`: first occurrence only, with
replacement-pattern expansion. -/
def jsReplaceFirst (pat repl l : List Char) : List Char :=
  match splitOnFirst pat l with
  | none => l
  | some (before, after) => before ++ expandRepl pat before after repl ++ after

/-- `html.replace(/<title>.*?<\/title>/, repl)`. -/
def replaceTitleTag (repl l : List Char) : List Char :=
  match findTitle l with
  | none => l
  | some (pre, inner, after) =>
    pre ++ expandRepl (titleOpen ++ inner ++ titleClose) pre after repl ++ after

/-- The three injected meta tags (the `metaTags` template literal). -/
def metaTags (title descOrTitle : List Char) : List Char :=
  "\n    <meta property=\"og:title\" content=\"".data ++ title ++
  "\" />\n    <meta name=\"description\" content=\"".data ++ descOrTitle ++
  "\" />\n    <meta property=\"og:description\" content=\"".data ++ descOrTitle ++
  "\" />".data

/-- `createHtmlPage` from `generate-pages.js`. -/
def createHtmlPage (baseHtml : String) (title : Option String) (desc : Option String) : String :=
  match title with
  | none => baseHtml
  | some t =>
    if t = "" then baseHtml
    else
      let titleRepl := titleOpen ++ t.data ++ " - Benjamin F. Wilson</title>".data
      let afterTitle := replaceTitleTag titleRepl baseHtml.data
      let headRepl := metaTags t.data (jsOr desc t).data ++ "\n  </head>".data
      String.mk (jsReplaceFirst headClose headRepl afterTitle)

def aboutDesc : String :=
  "Software engineer specializing in programming language theory and DSL development"

/-- The whole `generate-pages` command as a pure function: the files it
would write, paired with `some errorMessage` when it aborts (uncaught throw,
hence a non-zero process exit).  `getBaseHtml` runs before any write, so an
absent template yields no writes at all. -/
def generatePagesRun (fs : List (String × String)) : List (String × String) × Option String :=
  match lookupFs fs "docs/index.html" with
  | none => ([], some "Build output not found. Run \"vite build\" first.")
  | some baseHtml =>
    match lookupFs fs "src/utils/posts.js" with
    | none => ([], some "ENOENT: no such file or directory")
    | some postsFileTxt =>
      match getPostsFromModule postsFileTxt with
      | none => ([], some "Could not parse posts from posts.js")
      | some posts =>
        (("docs/about/index.html", createHtmlPage baseHtml (some "About") (some aboutDesc)) ::
          posts.map (fun p =>
            ("docs/post/" ++ p.slug ++ "/index.html",
             createHtmlPage baseHtml (some p.title) (some p.excerpt))), none)

/-! ### Auxiliary definitions used to state the claims -/

/-- The date key of a record whose date is known to parse. -/
def dateKeyD (p : Post) : Nat := (parseDateKey p.date).getD 0

/-- The processed value of the last metadata line that yields the key `k`
(later lines take priority). -/
def lastValueFor (k : String) : List String → Option String
  | [] => none
  | line :: rest =>
    match lastValueFor k rest with
    | some v => some v
    | none =>
      match parseLine line with
      | some (k2, v) => if k2 = k then some v else none
      | none => none

/-- Modelled from the spec wording of claim C2, for comparison with the
code's `stripQuotesChars`: strip one *matching* pair of leading/trailing
single or double quotes, if present. -/
def specStripMatchingQuotes (s : String) : String :=
  match s.data with
  | [] => s
  | c :: rest =>
    if (c == '"' || c == '\x27') && !rest.isEmpty && decide (rest.getLast? = some c) then
      String.mk rest.dropLast
    else s

/-! ## Lemmas -/

/-! ### Prefix and substring facts -/

theorem isPre_iff : ∀ (p l : List Char), p.isPrefixOf l = true ↔ ∃ t, l = p ++ t
  | [], l => by simp [List.isPrefixOf]
  | c :: p, [] => by simp [List.isPrefixOf]
  | c :: p, d :: l => by
    simp only [List.isPrefixOf, Bool.and_eq_true, beq_iff_eq, List.cons_append,
      List.cons.injEq, isPre_iff p l]
    constructor
    · rintro ⟨rfl, t, rfl⟩
      exact ⟨t, rfl, rfl⟩
    · rintro ⟨t, rfl, rfl⟩
      exact ⟨rfl, t, rfl⟩

theorem isPre_append (p t : List Char) : p.isPrefixOf (p ++ t) = true :=
  (isPre_iff p (p ++ t)).mpr ⟨t, rfl⟩

theorem occurs_cons {pat l : List Char} {c : Char} (h : Occurs pat l) : Occurs pat (c :: l) := by
  obtain ⟨x, y, rfl⟩ := h
  exact ⟨c :: x, y, rfl⟩

theorem occurs_single_iff {c : Char} {l : List Char} : Occurs [c] l ↔ c ∈ l := by
  constructor
  · rintro ⟨x, y, rfl⟩
    simp
  · intro hm
    obtain ⟨a, b, rfl⟩ := List.append_of_mem hm
    exact ⟨a, b, by simp⟩

theorem hasSub_iff (pat : List Char) : ∀ l, hasSub pat l = true ↔ Occurs pat l := by
  intro l
  induction l with
  | nil =>
    simp only [hasSub, List.isEmpty_iff, Occurs]
    constructor
    · rintro rfl
      exact ⟨[], [], rfl⟩
    · rintro ⟨x, y, h⟩
      obtain ⟨h1, -⟩ := List.append_eq_nil.mp h.symm
      exact (List.append_eq_nil.mp h1).2
  | cons c rest ih =>
    simp only [hasSub, Bool.or_eq_true, isPre_iff, ih]
    constructor
    · rintro (⟨t, ht⟩ | h)
      · exact ⟨[], t, by simpa using ht⟩
      · exact occurs_cons h
    · rintro ⟨x, y, hxy⟩
      cases x with
      | nil => exact Or.inl ⟨y, by simpa using hxy⟩
      | cons c2 x2 =>
        right
        rw [List.cons_append, List.cons_append] at hxy
        refine ⟨x2, y, ?_⟩
        have h2 : c = c2 ∧ rest = x2 ++ pat ++ y := by simpa using hxy
        exact h2.2

theorem occurs_decomp {pat a b : List Char} (h : Occurs pat (a ++ b)) :
    Occurs pat a ∨ Occurs pat b ∨
      ∃ s t, pat = s ++ t ∧ s ≠ [] ∧ t ≠ [] ∧ (∃ x, a = x ++ s) ∧ ∃ y, b = t ++ y := by
  obtain ⟨x, y, hxy⟩ := h
  rw [List.append_assoc] at hxy
  rcases List.append_eq_append_iff.mp hxy with ⟨a2, ha2, hb2⟩ | ⟨c2, hc2, hd2⟩
  · refine Or.inr (Or.inl ⟨a2, y, ?_⟩)
    rw [hb2, List.append_assoc]
  · rcases List.append_eq_append_iff.mp hd2 with ⟨p2, hp2, hy2⟩ | ⟨t2, ht2, hb3⟩
    · -- c2 = pat ++ p2, so pat occurs inside a
      refine Or.inl ⟨x, p2, ?_⟩
      rw [hc2, hp2, List.append_assoc]
    · -- pat = c2 ++ t2 with a = x ++ c2 and b = t2 ++ y
      rcases eq_or_ne c2 [] with rfl | hc2ne
      · refine Or.inr (Or.inl ⟨[], y, ?_⟩)
        have ht2' : pat = t2 := by simpa using ht2
        rw [hb3, ← ht2']
        simp
      · rcases eq_or_ne t2 [] with rfl | ht2ne
        · refine Or.inl ⟨x, [], ?_⟩
          rw [hc2, ht2]
          simp
        · exact Or.inr (Or.inr ⟨c2, t2, ht2, hc2ne, ht2ne, ⟨x, hc2⟩, ⟨y, hb3⟩⟩)

theorem occurs_in_front {pat A rest : List Char} (hfit : pat.length ≤ A.length)
    (hpre : pat.isPrefixOf (A ++ rest) = true) : Occurs pat A := by
  obtain ⟨t, ht⟩ := (isPre_iff _ _).mp hpre
  have htake : (A ++ rest).take pat.length = pat := by
    rw [ht, List.take_left]
  rw [List.take_append_of_le_length hfit] at htake
  refine ⟨[], A.drop pat.length, ?_⟩
  conv_lhs => rw [← List.take_append_drop pat.length A]
  rw [htake]
  simp

theorem splitOnFirst_append {pat : List Char} (hp : pat ≠ []) :
    ∀ (u v : List Char), ¬ Occurs pat (u ++ pat.dropLast) →
      splitOnFirst pat (u ++ pat ++ v) = some (u, v) := by
  intro u
  induction u with
  | nil =>
    intro v _
    obtain ⟨c, p, rfl⟩ := List.exists_cons_of_ne_nil hp
    show splitOnFirst (c :: p) (c :: (p ++ v)) = some ([], v)
    have hpre : (c :: p).isPrefixOf (c :: (p ++ v)) = true := isPre_append (c :: p) v
    have hd : (c :: (p ++ v)).drop (c :: p).length = v := List.drop_left (c :: p) v
    rw [splitOnFirst, if_pos hpre, hd]
  | cons c u2 ih =>
    intro v h
    have hnotpre : ¬ pat.isPrefixOf (c :: (u2 ++ pat ++ v)) = true := by
      intro hpre
      apply h
      have hlen : pat.length ≤ ((c :: u2) ++ pat.dropLast).length := by
        simp only [List.length_append, List.length_cons, List.length_dropLast]
        have := List.length_pos.mpr hp
        omega
      apply occurs_in_front hlen
      have hps : pat.dropLast ++ pat.getLast hp :: v = pat ++ v := by
        rw [show pat.getLast hp :: v = [pat.getLast hp] ++ v from rfl, ← List.append_assoc,
          List.dropLast_append_getLast hp]
      have hsplit : ((c :: u2) ++ pat.dropLast) ++ (pat.getLast hp :: v) =
          c :: (u2 ++ pat ++ v) := by
        simp only [List.cons_append, List.append_assoc]
        rw [hps]
      rw [hsplit]
      exact hpre
    have hh : ¬ Occurs pat (u2 ++ pat.dropLast) := fun ho => h (occurs_cons ho)
    show splitOnFirst pat (c :: (u2 ++ pat ++ v)) = some (c :: u2, v)
    rw [splitOnFirst, if_neg hnotpre, ih v hh]

theorem splitOnFirst_append' {pat : List Char} (hp : pat ≠ []) (u v : List Char)
    (h : ¬ Occurs pat (u ++ pat.dropLast)) :
    splitOnFirst pat (u ++ (pat ++ v)) = some (u, v) := by
  rw [← List.append_assoc]
  exact splitOnFirst_append hp u v h

/-! ### The frontmatter parser: claims C1, C2, C9 groundwork -/

theorem splitAtDelim_none {ls : List String} (h : "---" ∉ ls) : splitAtDelim ls = none := by
  induction ls with
  | nil => rfl
  | cons l ls ih =>
    have h1 : l ≠ "---" := by
      intro hl
      exact h (hl ▸ List.mem_cons_self l ls)
    have h2 : "---" ∉ ls := fun hm => h (List.mem_cons_of_mem _ hm)
    rw [splitAtDelim, if_neg h1, ih h2]

theorem splitAtDelim_append {pre rest : List String} (h : "---" ∉ pre) :
    splitAtDelim (pre ++ "---" :: rest) = some (pre, rest) := by
  induction pre with
  | nil => simp [splitAtDelim]
  | cons l pre ih =>
    have h1 : l ≠ "---" := by
      intro hl
      exact h (hl ▸ List.mem_cons_self l pre)
    have h2 : "---" ∉ pre := fun hm => h (List.mem_cons_of_mem _ hm)
    rw [List.cons_append, splitAtDelim, if_neg h1, ih h2]

/-- Claim C1: when the first line of the input is not `---`, and likewise
when the first line is `---` but no later line equals `---`, the
frontmatter parser returns an empty mapping and the input text unchanged. -/
theorem parseFrontmatter_no_block (fileText : String)
    (h : (jsSplitLines fileText).head? ≠ some "---" ∨
      ∃ rest, jsSplitLines fileText = "---" :: rest ∧ "---" ∉ rest) :
    parseFrontmatter fileText = ([], fileText) := by
  cases hl : jsSplitLines fileText with
  | nil => rw [parseFrontmatter, hl]
  | cons first rest =>
    rcases h with h | ⟨rest2, hr, hmem⟩
    · rw [hl] at h
      simp only [List.head?_cons, ne_eq, Option.some.injEq] at h
      simp [parseFrontmatter, hl, h]
    · rw [hl] at hr
      have h1 : first = "---" ∧ rest = rest2 := by simpa using hr
      obtain ⟨rfl, rfl⟩ := h1
      simp [parseFrontmatter, hl, splitAtDelim_none hmem]

/-- Witness for C1 at concrete inputs: one document whose first line is not
`---`, one whose opening `---` is never closed. -/
theorem parseFrontmatter_no_block_witness :
    parseFrontmatter "hello\n---\nworld" = ([], "hello\n---\nworld") ∧
      parseFrontmatter "---\ntitle: x\nno closing" = ([], "---\ntitle: x\nno closing") := by
  constructor
  · exact parseFrontmatter_no_block _ (Or.inl (by decide))
  · exact parseFrontmatter_no_block _
      (Or.inr ⟨["title: x", "no closing"], by decide, by decide⟩)

/-! ### The frontmatter mapping: lookup, insertion and uniqueness lemmas -/

theorem fmLookup_append (a b : List (String × String)) (k : String) :
    fmLookup (a ++ b) k =
      match fmLookup a k with
      | some v => some v
      | none => fmLookup b k := by
  induction a with
  | nil => simp [fmLookup]
  | cons p a ih =>
    obtain ⟨k2, v2⟩ := p
    by_cases h : k2 = k
    · simp [fmLookup, h]
    · simp [fmLookup, h, ih]

theorem fmAny_iff (m : List (String × String)) (k : String) :
    m.any (fun p => decide (p.1 = k)) = (fmLookup m k).isSome := by
  induction m with
  | nil => simp [fmLookup]
  | cons p m ih =>
    obtain ⟨k2, v2⟩ := p
    by_cases h : k2 = k
    · simp [fmLookup, h]
    · simp [fmLookup, h, ih]

theorem fmLookup_update_self (m : List (String × String)) (k v : String) :
    fmLookup (m.map (fun p => if p.1 = k then (k, v) else p)) k =
      if (fmLookup m k).isSome then some v else none := by
  induction m with
  | nil => simp [fmLookup]
  | cons p m ih =>
    obtain ⟨k2, v2⟩ := p
    rw [List.map_cons]
    rw [show (if ((k2, v2) : String × String).1 = k then (k, v) else (k2, v2)) =
      if k2 = k then (k, v) else (k2, v2) from rfl]
    by_cases h : k2 = k
    · rw [if_pos h, fmLookup, fmLookup, if_pos rfl, if_pos h]
      simp
    · rw [if_neg h, fmLookup, fmLookup, if_neg h, if_neg h, ih]

theorem fmLookup_update_other (m : List (String × String)) (k v k2 : String) (hne : k2 ≠ k) :
    fmLookup (m.map (fun p => if p.1 = k then (k, v) else p)) k2 = fmLookup m k2 := by
  induction m with
  | nil => simp [fmLookup]
  | cons p m ih =>
    obtain ⟨k3, v3⟩ := p
    rw [List.map_cons]
    rw [show (if ((k3, v3) : String × String).1 = k then (k, v) else (k3, v3)) =
      if k3 = k then (k, v) else (k3, v3) from rfl]
    by_cases h : k3 = k
    · rw [if_pos h, fmLookup, fmLookup, if_neg (Ne.symm hne),
        if_neg (show k3 ≠ k2 from fun hc => hne (hc ▸ h)), ih]
    · rw [if_neg h, fmLookup, fmLookup]
      by_cases hk3 : k3 = k2
      · rw [if_pos hk3, if_pos hk3]
      · rw [if_neg hk3, if_neg hk3, ih]

theorem fmLookup_fmInsert_self (m : List (String × String)) (k v : String) :
    fmLookup (fmInsert m k v) k = some v := by
  rw [fmInsert]
  by_cases h : m.any (fun p => decide (p.1 = k)) = true
  · rw [if_pos h, fmLookup_update_self]
    rw [fmAny_iff] at h
    rw [if_pos h]
  · rw [if_neg h, fmLookup_append]
    have hnone : fmLookup m k = none := by
      rw [fmAny_iff] at h
      exact Option.not_isSome_iff_eq_none.mp (by simpa using h)
    rw [hnone]
    simp [fmLookup]

theorem fmLookup_fmInsert_other (m : List (String × String)) (k v k2 : String) (hne : k2 ≠ k) :
    fmLookup (fmInsert m k v) k2 = fmLookup m k2 := by
  rw [fmInsert]
  by_cases h : m.any (fun p => decide (p.1 = k)) = true
  · rw [if_pos h, fmLookup_update_other _ _ _ _ hne]
  · rw [if_neg h, fmLookup_append]
    cases hm : fmLookup m k2 with
    | some v2 => simp
    | none => simp [fmLookup, Ne.symm hne]

theorem fmInsert_keys_nodup (m : List (String × String)) (k v : String)
    (h : (m.map Prod.fst).Nodup) : ((fmInsert m k v).map Prod.fst).Nodup := by
  rw [fmInsert]
  by_cases hc : m.any (fun p => decide (p.1 = k)) = true
  · rw [if_pos hc]
    have hkeys : (m.map (fun p => if p.1 = k then (k, v) else p)).map Prod.fst =
        m.map Prod.fst := by
      rw [List.map_map]
      apply List.map_congr_left
      intro p hp
      by_cases hpk : p.1 = k
      · simp [hpk]
      · simp [hpk]
    rw [hkeys]
    exact h
  · rw [if_neg hc]
    have hk : k ∉ m.map Prod.fst := by
      intro hkm
      apply hc
      rw [List.any_eq_true]
      obtain ⟨p, hp, hpk⟩ := List.mem_map.mp hkm
      exact ⟨p, hp, by simpa using hpk⟩
    simp [List.nodup_append, h, hk]

theorem foldl_fmStep_keys_nodup :
    ∀ (ls : List String) (m : List (String × String)),
      (m.map Prod.fst).Nodup → (((ls.foldl fmStep m)).map Prod.fst).Nodup := by
  intro ls
  induction ls with
  | nil => exact fun m h => h
  | cons line ls ih =>
    intro m h
    rw [List.foldl_cons]
    apply ih
    rw [fmStep]
    cases hp : parseLine line with
    | none => exact h
    | some kv => exact fmInsert_keys_nodup _ _ _ h

theorem fmLookup_foldl (k : String) :
    ∀ (ls : List String) (m : List (String × String)),
      fmLookup (ls.foldl fmStep m) k = (lastValueFor k ls).or (fmLookup m k) := by
  intro ls
  induction ls with
  | nil =>
    intro m
    simp [lastValueFor]
  | cons line ls ih =>
    intro m
    rw [List.foldl_cons, ih, lastValueFor]
    cases hl : lastValueFor k ls with
    | some v => simp
    | none =>
      cases hp : parseLine line with
      | none => simp [fmStep, hp]
      | some kv =>
        obtain ⟨k2, v⟩ := kv
        by_cases hk : k2 = k
        · subst hk
          simp [fmStep, hp, fmLookup_fmInsert_self]
        · simp [fmStep, hp, hk, fmLookup_fmInsert_other _ _ _ _ (Ne.symm hk)]

theorem buildFM_lookup (k : String) (metaLines : List String) :
    fmLookup (buildFM metaLines) k = lastValueFor k metaLines := by
  rw [buildFM, fmLookup_foldl]
  simp [fmLookup]

theorem lastValueFor_append (k : String) (a b : List String) :
    lastValueFor k (a ++ b) = (lastValueFor k b).or (lastValueFor k a) := by
  induction a with
  | nil => simp [lastValueFor]
  | cons line a ih =>
    rw [List.cons_append, lastValueFor, ih, lastValueFor]
    cases lastValueFor k b with
    | some v => simp
    | none => simp

theorem lastValueFor_none {k : String} {ls : List String}
    (h : ∀ l2 ∈ ls, ∀ v2, parseLine l2 ≠ some (k, v2)) : lastValueFor k ls = none := by
  induction ls with
  | nil => rfl
  | cons line ls ih =>
    rw [lastValueFor]
    rw [ih (fun l2 hm v2 => h l2 (List.mem_cons_of_mem _ hm) v2)]
    cases hp : parseLine line with
    | none => rfl
    | some kv =>
      obtain ⟨k2, v⟩ := kv
      have : k2 ≠ k := by
        intro hk
        subst hk
        exact h line (List.mem_cons_self _ _) v hp
      simp [this]

/-- Claim C9: in every parsed document the metadata keys are unique, and
on duplicate keys the last occurrence's value wins (the mapping agrees with
`lastValueFor`, which scans the metadata region giving later lines
priority). -/
theorem frontmatter_keys_unique_last_wins :
    (∀ fileText : String, (((parseFrontmatter fileText).1).map Prod.fst).Nodup) ∧
    (∀ (fileText : String) (metaLines bodyLines : List String) (k : String),
      jsSplitLines fileText = "---" :: metaLines ++ "---" :: bodyLines →
      "---" ∉ metaLines →
      fmLookup (parseFrontmatter fileText).1 k = lastValueFor k metaLines) := by
  constructor
  · intro t
    cases hl : jsSplitLines t with
    | nil => simp [parseFrontmatter, hl]
    | cons first rest =>
      by_cases hf : first = "---"
      · cases hs : splitAtDelim rest with
        | none => simp [parseFrontmatter, hl, hf, hs]
        | some pr =>
          obtain ⟨a, b⟩ := pr
          have : (parseFrontmatter t).1 = buildFM a := by
            simp [parseFrontmatter, hl, hf, hs]
          rw [this, buildFM]
          exact foldl_fmStep_keys_nodup a [] (by simp)
      · simp [parseFrontmatter, hl, hf]
  · intro t metaLines bodyLines k hl hnm
    have hs : splitAtDelim (metaLines ++ "---" :: bodyLines) = some (metaLines, bodyLines) :=
      splitAtDelim_append hnm
    have : (parseFrontmatter t).1 = buildFM metaLines := by
      simp [parseFrontmatter, hl, hs]
    rw [this, buildFM_lookup]

/-- Witness for C9: a concrete document with a duplicated key; the keys of
the result are unique and the second occurrence's value is returned. -/
theorem frontmatter_keys_unique_last_wins_witness :
    (((parseFrontmatter "---\na: 1\na: 2\n---\nx").1).map Prod.fst).Nodup ∧
      fmLookup (parseFrontmatter "---\na: 1\na: 2\n---\nx").1 "a" =
        lastValueFor "a" ["a: 1", "a: 2"] ∧
      lastValueFor "a" ["a: 1", "a: 2"] = some "2" := by
  refine ⟨frontmatter_keys_unique_last_wins.1 _, ?_, by decide⟩
  exact frontmatter_keys_unique_last_wins.2 _ ["a: 1", "a: 2"] ["x"] "a" (by decide) (by decide)

/-- Claim C2 (amended): for a well-formed metadata block, the mapping is the
fold of the metadata lines: each line is split at its first `:`; lines with
no colon or an empty raw key are skipped; the key and value are trimmed; the
value then loses one leading quote character and one trailing quote
character (single or double, independently — not necessarily a matching
pair); and when several lines yield the same key the last one's value is the
entry. -/
theorem parseFrontmatter_block (fileText : String) (metaLines bodyLines : List String)
    (hl : jsSplitLines fileText = "---" :: metaLines ++ "---" :: bodyLines)
    (hnm : "---" ∉ metaLines) :
    (parseFrontmatter fileText).1 = buildFM metaLines ∧
    (parseFrontmatter fileText).2 = jsTrim (joinNl bodyLines) ∧
    ∀ (pre suf : List String) (line k v : String),
      metaLines = pre ++ line :: suf →
      parseLine line = some (k, v) →
      (∀ l2 ∈ suf, ∀ v2, parseLine l2 ≠ some (k, v2)) →
      fmLookup (parseFrontmatter fileText).1 k = some v := by
  have hs : splitAtDelim (metaLines ++ "---" :: bodyLines) = some (metaLines, bodyLines) :=
    splitAtDelim_append hnm
  have h1 : (parseFrontmatter fileText).1 = buildFM metaLines := by
    simp [parseFrontmatter, hl, hs]
  have h2 : (parseFrontmatter fileText).2 = jsTrim (joinNl bodyLines) := by
    simp [parseFrontmatter, hl, hs]
  refine ⟨h1, h2, ?_⟩
  intro pre suf line k v hm hline hsuf
  rw [h1, buildFM_lookup, hm, lastValueFor_append]
  rw [lastValueFor, lastValueFor_none hsuf, hline]
  simp

/-- Witness for C2: a concrete well-formed document; the `title` entry is
the trimmed, quote-stripped value of its line. -/
theorem parseFrontmatter_block_witness :
    (parseFrontmatter "---\ntitle: \"Hi\"\ndate: 2025-08-07\n---\nBody").1 =
      buildFM ["title: \"Hi\"", "date: 2025-08-07"] ∧
      fmLookup (parseFrontmatter "---\ntitle: \"Hi\"\ndate: 2025-08-07\n---\nBody").1 "title" =
        some "Hi" := by
  have h := parseFrontmatter_block "---\ntitle: \"Hi\"\ndate: 2025-08-07\n---\nBody"
    ["title: \"Hi\"", "date: 2025-08-07"] ["Body"] (by decide) (by decide)
  refine ⟨h.1, ?_⟩
  refine h.2.2 [] ["date: 2025-08-07"] "title: \"Hi\"" "title" "Hi" (by decide) (by decide) ?_
  intro l2 hm v2 hcontra
  have hl2 : l2 = "date: 2025-08-07" := by simpa using hm
  subst hl2
  have hp : parseLine "date: 2025-08-07" = some ("date", "2025-08-07") := by decide
  rw [hp] at hcontra
  simp only [Option.some.injEq, Prod.mk.injEq] at hcontra
  exact absurd hcontra.1 (by decide)

/-- Counterexample to C2 as stated: on the line `k: "v'` the trimmed raw
value `"v'` has *no matching* quote pair, so per the claim it should be kept
verbatim; the code nevertheless strips both the leading `"` and the trailing
`'`, producing `v`. -/
theorem parseFrontmatter_quote_counterexample :
    (parseFrontmatter "---\nk: \"v\x27\n---\nbody").1 = [("k", "v")] ∧
      jsTrim " \"v\x27" = "\"v\x27" ∧
      specStripMatchingQuotes "\"v\x27" = "\"v\x27" ∧
      ("v" : String) ≠ "\"v\x27" := by decide

/-! ### The post collector: defaulting (claims C4 and C10) -/

/-- Claim C4: a document with no metadata block keeps its text as body and
gets slug = file name minus extension, title = slug, date = build date, and
excerpt = the first 120 characters of the body's first line plus `...`. -/
theorem mkPost_defaults (file fileText buildDate : String)
    (h : parseFrontmatter fileText = ([], fileText)) :
    (mkPost file fileText buildDate).slug = basenameMd file ∧
    (mkPost file fileText buildDate).title = basenameMd file ∧
    (mkPost file fileText buildDate).date = buildDate ∧
    (mkPost file fileText buildDate).excerpt =
      String.mk (((jsSplitLines fileText).headD "").data.take 120) ++ "..." ∧
    (mkPost file fileText buildDate).content = fileText := by
  simp [mkPost, h, jsOr, fmLookup]

/-- Witness for C4: the spec's own example `untitled.md` with body
`Hello world. More text.`. -/
theorem mkPost_defaults_witness :
    ((mkPost "untitled.md" "Hello world. More text." "2025-10-12").slug =
        basenameMd "untitled.md" ∧
      (mkPost "untitled.md" "Hello world. More text." "2025-10-12").title =
        basenameMd "untitled.md" ∧
      (mkPost "untitled.md" "Hello world. More text." "2025-10-12").date = "2025-10-12" ∧
      (mkPost "untitled.md" "Hello world. More text." "2025-10-12").excerpt =
        String.mk (((jsSplitLines "Hello world. More text.").headD "").data.take 120) ++ "..." ∧
      (mkPost "untitled.md" "Hello world. More text." "2025-10-12").content =
        "Hello world. More text.") ∧
    basenameMd "untitled.md" = "untitled" ∧
    (mkPost "untitled.md" "Hello world. More text." "2025-10-12").excerpt =
      "Hello world. More text...." :=
  ⟨mkPost_defaults _ _ _ (by decide), by decide, by decide⟩

/-- Claim C10 (implicit): a metadata value equal to the empty string is
falsy for `||`, so `title`, `date` and `excerpt` entries that are empty
strings are replaced by the same defaults as absent entries. -/
theorem mkPost_empty_value_defaults (file fileText buildDate : String) :
    (fmLookup (parseFrontmatter fileText).1 "title" = some "" →
      (mkPost file fileText buildDate).title = basenameMd file) ∧
    (fmLookup (parseFrontmatter fileText).1 "date" = some "" →
      (mkPost file fileText buildDate).date = buildDate) ∧
    (fmLookup (parseFrontmatter fileText).1 "excerpt" = some "" →
      (mkPost file fileText buildDate).excerpt =
        String.mk (((jsSplitLines (parseFrontmatter fileText).2).headD "").data.take 120)
          ++ "...") := by
  refine ⟨fun h => ?_, fun h => ?_, fun h => ?_⟩ <;> simp [mkPost, h, jsOr]

/-- Witness for C10: a document whose `title`, `date` and `excerpt` entries
are all present but empty; every default applies. -/
theorem mkPost_empty_value_defaults_witness :
    ((mkPost "p.md" "---\ntitle:\ndate:\nexcerpt:\n---\nBody here" "2025-10-12").title =
        basenameMd "p.md" ∧
      (mkPost "p.md" "---\ntitle:\ndate:\nexcerpt:\n---\nBody here" "2025-10-12").date =
        "2025-10-12" ∧
      (mkPost "p.md" "---\ntitle:\ndate:\nexcerpt:\n---\nBody here" "2025-10-12").excerpt =
        String.mk (((jsSplitLines
            (parseFrontmatter "---\ntitle:\ndate:\nexcerpt:\n---\nBody here").2).headD
          "").data.take 120) ++ "...") ∧
    (mkPost "p.md" "---\ntitle:\ndate:\nexcerpt:\n---\nBody here" "2025-10-12").excerpt =
      "Body here..." := by
  refine ⟨⟨?_, ?_, ?_⟩, by decide⟩
  · exact (mkPost_empty_value_defaults "p.md" _ "2025-10-12").1 (by decide)
  · exact (mkPost_empty_value_defaults "p.md" _ "2025-10-12").2.1 (by decide)
  · exact (mkPost_empty_value_defaults "p.md" _ "2025-10-12").2.2 (by decide)

/-! ### The post collector: date ordering (claim C3) -/

theorem dateLeB_iff {a b : Post} (ha : (parseDateKey a.date).isSome = true)
    (hb : (parseDateKey b.date).isSome = true) :
    (dateLeB a b = true) ↔ dateKeyD b ≤ dateKeyD a := by
  obtain ⟨x, hx⟩ := Option.isSome_iff_exists.mp ha
  obtain ⟨y, hy⟩ := Option.isSome_iff_exists.mp hb
  simp [dateLeB, hx, hy, dateKeyD]

theorem orderedInsert_dates_pairwise (x : Post) :
    ∀ l : List Post, (parseDateKey x.date).isSome = true →
      (∀ p ∈ l, (parseDateKey p.date).isSome = true) →
      l.Pairwise (fun a b => dateKeyD b ≤ dateKeyD a) →
      (List.orderedInsert (fun a b => dateLeB a b = true) x l).Pairwise
        (fun a b => dateKeyD b ≤ dateKeyD a) := by
  intro l
  induction l with
  | nil =>
    intro _ _ _
    simp
  | cons b l ih =>
    intro hx hall hp
    rw [List.orderedInsert]
    by_cases hr : dateLeB x b = true
    · rw [if_pos hr]
      have hxb : dateKeyD b ≤ dateKeyD x :=
        (dateLeB_iff hx (hall b (List.mem_cons_self _ _))).mp hr
      refine List.pairwise_cons.mpr ⟨?_, hp⟩
      intro y hy
      rcases List.mem_cons.mp hy with rfl | hyl
      · exact hxb
      · exact le_trans ((List.pairwise_cons.mp hp).1 y hyl) hxb
    · rw [if_neg hr]
      have hbx : dateKeyD x < dateKeyD b := by
        have := (dateLeB_iff hx (hall b (List.mem_cons_self _ _))).not.mp hr
        omega
      refine List.pairwise_cons.mpr
        ⟨?_, ih hx (fun p hm => hall p (List.mem_cons_of_mem _ hm))
          (List.pairwise_cons.mp hp).2⟩
      intro y hy
      rcases (List.mem_orderedInsert _).mp hy with rfl | hyl
      · exact le_of_lt hbx
      · exact (List.pairwise_cons.mp hp).1 y hyl

theorem insertionSort_dates_pairwise :
    ∀ l : List Post, (∀ p ∈ l, (parseDateKey p.date).isSome = true) →
      (List.insertionSort (fun a b => dateLeB a b = true) l).Pairwise
        (fun a b => dateKeyD b ≤ dateKeyD a) := by
  intro l
  induction l with
  | nil =>
    intro _
    simp
  | cons b l ih =>
    intro hall
    rw [List.insertionSort]
    apply orderedInsert_dates_pairwise
    · exact hall b (List.mem_cons_self _ _)
    · intro p hm
      exact hall p (List.mem_cons_of_mem _ ((List.perm_insertionSort _ l).subset hm))
    · exact ih (fun p hm => hall p (List.mem_cons_of_mem _ hm))

/-- Claim C3: the post collector's output is sorted by date descending
(whenever the dates parse as calendar dates), and on the spec's concrete
pair of documents the `2025-11-26` record strictly precedes the
`2025-01-15` record. -/
theorem collectPosts_sorted_by_date_desc :
    (∀ (dir : List (String × String)) (buildDate : String),
      (∀ p ∈ collectPosts dir buildDate, (parseDateKey p.date).isSome = true) →
      (collectPosts dir buildDate).Pairwise (fun a b => dateKeyD b ≤ dateKeyD a)) ∧
    (collectPosts [("a.md", "---\ndate: 2025-01-15\n---\nA"),
        ("b.md", "---\ndate: 2025-11-26\n---\nB")] "2025-06-01").map Post.date =
      ["2025-11-26", "2025-01-15"] := by
  constructor
  · intro dir buildDate hall
    simp only [collectPosts, sortByDateDesc] at hall ⊢
    apply insertionSort_dates_pairwise
    intro p hm
    exact hall p ((List.perm_insertionSort _ _).mem_iff.mpr hm)
  · decide

/-- Witness for C3: the sortedness statement applied to the spec's concrete
directory. -/
theorem collectPosts_sorted_by_date_desc_witness :
    (collectPosts [("a.md", "---\ndate: 2025-01-15\n---\nA"),
        ("b.md", "---\ndate: 2025-11-26\n---\nB")] "2025-06-01").Pairwise
      (fun a b => dateKeyD b ≤ dateKeyD a) :=
  collectPosts_sorted_by_date_desc.1 _ "2025-06-01" (by decide)

/-! ### The post collector: determinism (claim C8) -/

theorem chLe_total : ∀ a b : List Char, chLe a b = true ∨ chLe b a = true
  | [], _ => Or.inl rfl
  | _ :: _, [] => Or.inr rfl
  | a :: as, b :: bs => by
    rw [chLe, chLe]
    rcases Nat.lt_trichotomy a.toNat b.toNat with h | h | h
    · left
      rw [if_pos h]
    · rw [if_neg (by omega), if_neg (by omega), if_neg (by omega), if_neg (by omega)]
      exact chLe_total as bs
    · right
      rw [if_pos h]

theorem chLe_trans : ∀ a b c : List Char,
    chLe a b = true → chLe b c = true → chLe a c = true
  | [], _, _ => fun _ _ => rfl
  | a :: as, [], _ => by
    intro h _
    simp [chLe] at h
  | a :: as, b :: bs, [] => by
    intro _ h
    simp [chLe] at h
  | a :: as, b :: bs, c :: cs => by
    intro h1 h2
    rw [chLe] at h1 h2 ⊢
    rcases Nat.lt_trichotomy a.toNat b.toNat with hab | hab | hab
    · rcases Nat.lt_trichotomy b.toNat c.toNat with hbc | hbc | hbc
      · rw [if_pos (by omega)]
      · rw [if_pos (by omega)]
      · rw [if_neg (by omega), if_pos hbc] at h2
        cases h2
    · rw [if_neg (by omega), if_neg (by omega)] at h1
      rcases Nat.lt_trichotomy b.toNat c.toNat with hbc | hbc | hbc
      · rw [if_pos (by omega)]
      · rw [if_neg (by omega), if_neg (by omega)] at h2 ⊢
        exact chLe_trans as bs cs h1 h2
      · rw [if_neg (by omega), if_pos hbc] at h2
        cases h2
    · rw [if_neg (by omega), if_pos hab] at h1
      cases h1

theorem chLe_antisymm : ∀ a b : List Char, chLe a b = true → chLe b a = true → a = b
  | [], [] => fun _ _ => rfl
  | [], _ :: _ => by
    intro _ h
    simp [chLe] at h
  | _ :: _, [] => by
    intro h _
    simp [chLe] at h
  | a :: as, b :: bs => by
    intro h1 h2
    rw [chLe] at h1 h2
    rcases Nat.lt_trichotomy a.toNat b.toNat with h | h | h
    · rw [if_neg (by omega), if_pos h] at h2
      cases h2
    · rw [if_neg (by omega), if_neg (by omega)] at h1 h2
      have hc : a = b := by
        rw [← Char.ofNat_toNat a, ← Char.ofNat_toNat b, h]
      rw [hc, chLe_antisymm as bs h1 h2]
    · rw [if_neg (by omega), if_pos h] at h1
      cases h1

theorem insertionSort_pairwise_of {α : Type} (le : α → α → Bool)
    (htot : ∀ a b, le a b = true ∨ le b a = true)
    (htrans : ∀ a b c, le a b = true → le b c = true → le a c = true) :
    ∀ l : List α, (List.insertionSort (fun a b => le a b = true) l).Pairwise
      (fun a b => le a b = true) := by
  have hoi : ∀ (x : α) (l : List α),
      l.Pairwise (fun a b => le a b = true) →
      (List.orderedInsert (fun a b => le a b = true) x l).Pairwise
        (fun a b => le a b = true) := by
    intro x l
    induction l with
    | nil =>
      intro _
      simp
    | cons b l ih =>
      intro hp
      rw [List.orderedInsert]
      by_cases hr : le x b = true
      · rw [if_pos hr]
        refine List.pairwise_cons.mpr ⟨?_, hp⟩
        intro y hy
        rcases List.mem_cons.mp hy with rfl | hyl
        · exact hr
        · exact htrans x b y hr ((List.pairwise_cons.mp hp).1 y hyl)
      · rw [if_neg hr]
        have hbx : le b x = true := (htot x b).resolve_left hr
        refine List.pairwise_cons.mpr ⟨?_, ih (List.pairwise_cons.mp hp).2⟩
        intro y hy
        rcases (List.mem_orderedInsert _).mp hy with rfl | hyl
        · exact hbx
        · exact (List.pairwise_cons.mp hp).1 y hyl
  intro l
  induction l with
  | nil => simp
  | cons b l ih =>
    rw [List.insertionSort]
    exact hoi b _ ih

theorem lookupFs_perm : ∀ {l1 l2 : List (String × String)}, l1.Perm l2 →
    (l1.map Prod.fst).Nodup → ∀ n, lookupFs l1 n = lookupFs l2 n := by
  intro l1 l2 h
  induction h with
  | nil =>
    intro _ _
    rfl
  | cons x h ih =>
    intro hnd n
    obtain ⟨k, v⟩ := x
    rw [lookupFs, lookupFs]
    by_cases hk : k = n
    · rw [if_pos hk, if_pos hk]
    · rw [if_neg hk, if_neg hk]
      have hnd' := hnd
      simp only [List.map_cons, List.nodup_cons] at hnd'
      exact ih hnd'.2 n
  | swap x y l =>
    intro hnd n
    obtain ⟨k1, v1⟩ := x
    obtain ⟨k2, v2⟩ := y
    rw [lookupFs, lookupFs, lookupFs, lookupFs]
    by_cases h1 : k1 = n
    · by_cases h2 : k2 = n
      · exfalso
        have hnd' := hnd
        simp at hnd'
        exact hnd'.1.1 (h2.trans h1.symm)
      · rw [if_neg h2, if_pos h1, if_pos h1]
    · by_cases h2 : k2 = n
      · rw [if_pos h2, if_neg h1, if_pos h2]
      · rw [if_neg h2, if_neg h1, if_neg h1, if_neg h2]
  | trans h1 h2 ih1 ih2 =>
    intro hnd n
    rw [ih1 hnd n, ih2 ((h1.map Prod.fst).nodup_iff.mp hnd) n]

/-- Claim C8: determinism / idempotence of the post collector: the emitted
module text depends only on the directory's contents (the set of
name-content pairs and the build date), not on the order in which the
filesystem happens to list them; hence two runs on an unchanged directory
produce byte-identical serialized output. -/
theorem buildPosts_deterministic (dir1 dir2 : List (String × String)) (buildDate : String)
    (hperm : dir1.Perm dir2) (hnd : (dir1.map Prod.fst).Nodup) :
    buildPostsRun dir1 buildDate = buildPostsRun dir2 buildDate := by
  have hcollect : collectPosts dir1 buildDate = collectPosts dir2 buildDate := by
    haveI : IsAntisymm String (fun a b => nameLe a b = true) := ⟨by
      intro a b h1 h2
      cases a with
      | mk da =>
        cases b with
        | mk db => exact congrArg String.mk (chLe_antisymm da db h1 h2)⟩
    have hnames : sortFileNames ((dir1.map Prod.fst).filter endsWithMd) =
        sortFileNames ((dir2.map Prod.fst).filter endsWithMd) := by
      refine @List.eq_of_perm_of_sorted String (fun a b => nameLe a b = true)
        inferInstance _ _ ?_ ?_ ?_
      · exact (List.perm_insertionSort _ _).trans
          (((hperm.map Prod.fst).filter _).trans (List.perm_insertionSort _ _).symm)
      · exact insertionSort_pairwise_of nameLe
          (fun a b => chLe_total a.data b.data)
          (fun a b c => chLe_trans a.data b.data c.data) _
      · exact insertionSort_pairwise_of nameLe
          (fun a b => chLe_total a.data b.data)
          (fun a b c => chLe_trans a.data b.data c.data) _
    simp only [collectPosts]
    rw [hnames]
    congr 1
    apply List.filterMap_congr
    intro n _
    rw [lookupFs_perm hperm hnd n]
  rw [buildPostsRun, buildPostsRun, hcollect]

/-- Witness for C8: a two-file directory listed in two different orders
produces the same module text. -/
theorem buildPosts_deterministic_witness :
    buildPostsRun [("b.md", "B"), ("a.md", "A")] "2025-10-12" =
      buildPostsRun [("a.md", "A"), ("b.md", "B")] "2025-10-12" :=
  buildPosts_deterministic _ _ _ (List.Perm.swap _ _ _) (by decide)

/-! ### The page generator: fatal path (claim C7) -/

/-- Claim C7: when the base template `docs/index.html` is absent, the page
generator raises the "Build output not found" error before performing any
write, so the run terminates (uncaught throw, non-zero process exit) with
no output files written. -/
theorem generatePages_missing_template (fs : List (String × String))
    (h : lookupFs fs "docs/index.html" = none) :
    generatePagesRun fs = ([], some "Build output not found. Run \"vite build\" first.") := by
  rw [generatePagesRun, h]

/-- Witness for C7: a filesystem that has the posts module but no built
template. -/
theorem generatePages_missing_template_witness :
    generatePagesRun [("src/utils/posts.js", "export const posts = []")] =
      ([], some "Build output not found. Run \"vite build\" first.") :=
  generatePages_missing_template _ (by decide)

/-! ### The page generator: title and meta-tag substitution (claim C6) -/

theorem not_occurs_of_hasSub_false {pat l : List Char} (h : hasSub pat l = false) :
    ¬ Occurs pat l := by
  intro ho
  rw [← hasSub_iff pat l, h] at ho
  cases ho

theorem occurs_head_overlap {pat u v : List Char} (hp : pat ≠ []) (hu : u ≠ [])
    (hpre : pat.isPrefixOf (u ++ pat ++ v) = true) : Occurs pat (u ++ pat.dropLast) := by
  have hlen : pat.length ≤ (u ++ pat.dropLast).length := by
    rw [List.length_append, List.length_dropLast]
    have h1 := List.length_pos.mpr hp
    have h2 := List.length_pos.mpr hu
    omega
  apply occurs_in_front hlen
  have hps : pat.dropLast ++ pat.getLast hp :: v = pat ++ v := by
    rw [show pat.getLast hp :: v = [pat.getLast hp] ++ v from rfl, ← List.append_assoc,
      List.dropLast_append_getLast hp]
  have hsplit : (u ++ pat.dropLast) ++ (pat.getLast hp :: v) = u ++ pat ++ v := by
    simp only [List.append_assoc]
    rw [hps]
  rw [hsplit]
  exact hpre

theorem expandRepl_patFree (matched before after : List Char) :
    ∀ r : List Char, replPatFree r = true → expandRepl matched before after r = r := by
  have main : ∀ (n : Nat) (r : List Char), r.length ≤ n → replPatFree r = true →
      expandRepl matched before after r = r := by
    intro n
    induction n with
    | zero =>
      intro r hlen _
      have hr : r = [] := List.eq_nil_of_length_eq_zero (Nat.le_zero.mp hlen)
      subst hr
      rfl
    | succ n ih =>
      intro r hlen h
      match r with
      | [] => rfl
      | [c] => rfl
      | c :: c2 :: rest =>
        rw [expandRepl]
        rw [replPatFree] at h
        by_cases hc : c = '$'
        · rw [if_pos hc] at h ⊢
          simp only [Bool.and_eq_true, Bool.not_eq_true', Bool.or_eq_false_iff,
            beq_eq_false_iff_ne, ne_eq] at h
          obtain ⟨⟨⟨⟨h1, h2⟩, h3⟩, h4⟩, h5⟩ := h
          rw [if_neg h1, if_neg h2, if_neg h3, if_neg h4]
          rw [ih (c2 :: rest) (by simp at hlen ⊢; omega) h5, hc]
        · rw [if_neg hc] at h ⊢
          rw [ih (c2 :: rest) (by simp at hlen ⊢; omega) h]
  exact fun r h => main r.length r le_rfl h

theorem scanTitleInner_eq (old rest : List Char) (hnl : '\n' ∉ old)
    (hno : ¬ Occurs titleClose (old ++ titleClose.dropLast)) :
    scanTitleInner (old ++ (titleClose ++ rest)) = some (old, rest) := by
  induction old with
  | nil =>
    simp only [List.nil_append]
    rw [show titleClose ++ rest = '<' :: ("/title>".data ++ rest) from rfl]
    have hp : titleClose.isPrefixOf ('<' :: ("/title>".data ++ rest)) = true :=
      isPre_append titleClose rest
    have hd : ('<' :: ("/title>".data ++ rest)).drop 8 = rest := List.drop_left titleClose rest
    rw [scanTitleInner, if_pos hp, hd]
  | cons c old ih =>
    have hnotpre : ¬ titleClose.isPrefixOf (c :: (old ++ (titleClose ++ rest))) = true := by
      intro hyp
      apply hno
      have ho := @occurs_head_overlap titleClose (c :: old) rest
        (by decide) (List.cons_ne_nil c old) (by simpa [List.append_assoc] using hyp)
      simpa using ho
    have hcnl : ¬ c = '\n' := fun hcc => hnl (hcc ▸ List.mem_cons_self c old)
    rw [List.cons_append, scanTitleInner, if_neg hnotpre, if_neg hcnl]
    rw [ih (fun hm => hnl (List.mem_cons_of_mem _ hm)) (fun ho => hno (occurs_cons ho))]

theorem matchTitleAt_eq (old rest : List Char) (hnl : '\n' ∉ old)
    (hno : ¬ Occurs titleClose (old ++ titleClose.dropLast)) :
    matchTitleAt (titleOpen ++ (old ++ (titleClose ++ rest))) = some (old, rest) := by
  have hd : (titleOpen ++ (old ++ (titleClose ++ rest))).drop 7 =
      old ++ (titleClose ++ rest) := List.drop_left titleOpen _
  rw [matchTitleAt, if_pos (isPre_append _ _), hd]
  exact scanTitleInner_eq old rest hnl hno

theorem findTitle_of_match {l inner after : List Char}
    (hm : matchTitleAt l = some (inner, after)) : findTitle l = some ([], inner, after) := by
  cases l with
  | nil =>
    rw [show matchTitleAt [] = none from rfl] at hm
    cases hm
  | cons c rest => rw [findTitle, hm]

theorem findTitle_eq (pre old rest : List Char)
    (hpre : ¬ Occurs titleOpen (pre ++ titleOpen.dropLast))
    (hnl : '\n' ∉ old)
    (hno : ¬ Occurs titleClose (old ++ titleClose.dropLast)) :
    findTitle (pre ++ (titleOpen ++ (old ++ (titleClose ++ rest)))) =
      some (pre, old, rest) := by
  induction pre with
  | nil =>
    simp only [List.nil_append]
    exact findTitle_of_match (matchTitleAt_eq old rest hnl hno)
  | cons c pre ih =>
    simp only [List.cons_append]
    have hnot : matchTitleAt
        (c :: (pre ++ (titleOpen ++ (old ++ (titleClose ++ rest))))) = none := by
      rw [matchTitleAt]
      rw [if_neg ?_]
      intro hyp
      apply hpre
      have ho := @occurs_head_overlap titleOpen (c :: pre) (old ++ (titleClose ++ rest))
        (by decide) (List.cons_ne_nil c pre)
        (by simpa [List.append_assoc] using hyp)
      simpa using ho
    rw [findTitle, hnot]
    rw [ih (fun ho => hpre (occurs_cons ho))]

theorem replaceTitleTag_found {l pre inner after : List Char} (repl : List Char)
    (h : findTitle l = some (pre, inner, after)) :
    replaceTitleTag repl l =
      pre ++ expandRepl (titleOpen ++ inner ++ titleClose) pre after repl ++ after := by
  have hdef : replaceTitleTag repl l =
      match findTitle l with
      | none => l
      | some (pre, inner, after) =>
        pre ++ expandRepl (titleOpen ++ inner ++ titleClose) pre after repl ++ after := rfl
  rw [hdef, h]

theorem jsReplaceFirst_found {l before after : List Char} (pat repl : List Char)
    (h : splitOnFirst pat l = some (before, after)) :
    jsReplaceFirst pat repl l = before ++ expandRepl pat before after repl ++ after := by
  have hdef : jsReplaceFirst pat repl l =
      match splitOnFirst pat l with
      | none => l
      | some (before, after) => before ++ expandRepl pat before after repl ++ after := rfl
  rw [hdef, h]

/-- Claim C6 (amended): for every base template containing a single-line
title element and a closing head marker (first occurrences unambiguous), and
every nonempty title and description that contain no JavaScript replacement
patterns (`$$`, `$&`, `` $` ``, `$'`), the generator rewrites the title-tag
contents to `<title> - Benjamin F. Wilson` and inserts exactly the three
meta tags (og:title, description, og:description) immediately before
`</head>`, the description falling back to the title when absent. -/
theorem createHtmlPage_meta (pre old mid tail title : List Char) (desc : Option String)
    (htne : title ≠ [])
    (hpre : hasSub titleOpen (pre ++ titleOpen.dropLast) = false)
    (hnl : '\n' ∉ old)
    (hclose : hasSub titleClose (old ++ titleClose.dropLast) = false)
    (hrepl1 : replPatFree (titleOpen ++ title ++ " - Benjamin F. Wilson</title>".data) = true)
    (hrepl2 : replPatFree
      (metaTags title (jsOr desc (String.mk title)).data ++ "\n  </head>".data) = true)
    (hhead : hasSub headClose
      ((pre ++ (titleOpen ++ (title ++ (" - Benjamin F. Wilson</title>".data ++ mid)))) ++
        headClose.dropLast) = false) :
    createHtmlPage
        (String.mk (pre ++ (titleOpen ++ (old ++ (titleClose ++ (mid ++ (headClose ++ tail)))))))
        (some (String.mk title)) desc =
      String.mk (pre ++ (titleOpen ++ (title ++ (" - Benjamin F. Wilson</title>".data ++
        (mid ++ (metaTags title (jsOr desc (String.mk title)).data ++
          ("\n  </head>".data ++ tail))))))) := by
  have htne' : ¬ (String.mk title = "") := fun hc => htne (congrArg String.data hc)
  have hstep1 : createHtmlPage
      (String.mk (pre ++ (titleOpen ++ (old ++ (titleClose ++ (mid ++ (headClose ++ tail)))))))
      (some (String.mk title)) desc =
      String.mk (jsReplaceFirst headClose
        (metaTags title (jsOr desc (String.mk title)).data ++ "\n  </head>".data)
        (replaceTitleTag (titleOpen ++ title ++ " - Benjamin F. Wilson</title>".data)
          (pre ++ (titleOpen ++ (old ++ (titleClose ++ (mid ++ (headClose ++ tail)))))))) := by
    rw [show createHtmlPage
      (String.mk (pre ++ (titleOpen ++ (old ++ (titleClose ++ (mid ++ (headClose ++ tail)))))))
      (some (String.mk title)) desc =
      if String.mk title = "" then
        String.mk (pre ++ (titleOpen ++ (old ++ (titleClose ++ (mid ++ (headClose ++ tail))))))
      else
        String.mk (jsReplaceFirst headClose
          (metaTags title (jsOr desc (String.mk title)).data ++ "\n  </head>".data)
          (replaceTitleTag (titleOpen ++ title ++ " - Benjamin F. Wilson</title>".data)
            (pre ++ (titleOpen ++ (old ++ (titleClose ++ (mid ++ (headClose ++ tail))))))))
      from rfl]
    rw [if_neg htne']
  rw [hstep1]
  rw [replaceTitleTag_found _ (findTitle_eq pre old (mid ++ (headClose ++ tail))
    (not_occurs_of_hasSub_false hpre) hnl (not_occurs_of_hasSub_false hclose))]
  rw [expandRepl_patFree _ _ _ _ hrepl1]
  have heq : pre ++ (titleOpen ++ title ++ " - Benjamin F. Wilson</title>".data) ++
      (mid ++ (headClose ++ tail)) =
      (pre ++ (titleOpen ++ (title ++ (" - Benjamin F. Wilson</title>".data ++ mid)))) ++
        (headClose ++ tail) := by
    simp [List.append_assoc]
  rw [heq]
  rw [jsReplaceFirst_found headClose _ (splitOnFirst_append' (by decide)
    (pre ++ (titleOpen ++ (title ++ (" - Benjamin F. Wilson</title>".data ++ mid)))) tail
    (not_occurs_of_hasSub_false hhead))]
  rw [expandRepl_patFree _ _ _ _ hrepl2]
  apply congrArg String.mk
  simp [List.append_assoc]

/-- Witness for C6: the spec's example template `<title>Old</title></head>`
with title `About` and description `D`, plus the fully evaluated result. -/
theorem createHtmlPage_meta_witness :
    createHtmlPage
        (String.mk ([] ++ (titleOpen ++ ("Old".data ++ (titleClose ++
          ([] ++ (headClose ++ [])))))))
        (some (String.mk "About".data)) (some "D") =
      String.mk ([] ++ (titleOpen ++ ("About".data ++ (" - Benjamin F. Wilson</title>".data ++
        ([] ++ (metaTags "About".data (jsOr (some "D") (String.mk "About".data)).data ++
          ("\n  </head>".data ++ []))))))) ∧
    createHtmlPage "<title>Old</title></head>" (some "About") (some "D") =
      "<title>About - Benjamin F. Wilson</title>\n    <meta property=\"og:title\" content=\"About\" />\n    <meta name=\"description\" content=\"D\" />\n    <meta property=\"og:description\" content=\"D\" />\n  </head>" := by
  constructor
  · exact createHtmlPage_meta [] "Old".data [] [] "About".data (some "D") (by decide)
      (by decide) (by decide) (by decide) (by decide) (by decide) (by decide)
  · decide

/-! ### The data emitter round trip (claim C5): string literals -/

theorem hexVal_hexDigitChar (n : Nat) (h : n < 16) : hexVal (hexDigitChar n) = some n := by
  interval_cases n <;> decide

theorem stripLit_pre (lit rest : List Char) : stripLit lit (lit ++ rest) = some rest := by
  induction lit with
  | nil => rfl
  | cons c lit ih => rw [List.cons_append, stripLit, if_pos rfl, ih]

theorem stripLit_head_ne {a b : Char} (h : a ≠ b) (as bs : List Char) :
    stripLit (a :: as) (b :: bs) = none := by
  rw [stripLit, if_neg h]

theorem stripLit_head2_ne {a b d : Char} (h : b ≠ d) (cs es : List Char) :
    stripLit (a :: b :: cs) (a :: d :: es) = none := by
  rw [stripLit, if_pos rfl, stripLit, if_neg h]

theorem parseStrBodyAux_cons (fuel : Nat) (c : Char) (rest : List Char) :
    parseStrBodyAux (fuel + 1) (c :: rest) =
      if c = '"' then some ([], rest)
      else if c = '\\' then
        (match rest with
         | [] => none
         | e :: rest2 =>
           if e = 'u' then
             match rest2 with
             | h1 :: h2 :: h3 :: h4 :: rest3 =>
               match hexVal h1, hexVal h2, hexVal h3, hexVal h4 with
               | some a, some b, some x, some y =>
                 (parseStrBodyAux fuel rest3).map
                   (fun pr => (Char.ofNat (4096 * a + 256 * b + 16 * x + y) :: pr.1, pr.2))
               | _, _, _, _ => none
             | _ => none
           else
             match unescCode e with
             | none => none
             | some c2 => (parseStrBodyAux fuel rest2).map (fun pr => (c2 :: pr.1, pr.2)))
      else (parseStrBodyAux fuel rest).map (fun pr => (c :: pr.1, pr.2)) := rfl

theorem parseStrBodyAux_plain {c : Char} (hq : ¬ c = '"') (hb : ¬ c = '\\')
    (fuel : Nat) (rest : List Char) :
    parseStrBodyAux (fuel + 1) (c :: rest) =
      (parseStrBodyAux fuel rest).map (fun pr => (c :: pr.1, pr.2)) := by
  rw [parseStrBodyAux_cons, if_neg hq, if_neg hb]

theorem parseStrBodyAux_escaped (e c2 : Char) (he : ¬ e = 'u') (hc : unescCode e = some c2)
    (fuel : Nat) (rest : List Char) :
    parseStrBodyAux (fuel + 1) ('\\' :: e :: rest) =
      (parseStrBodyAux fuel rest).map (fun pr => (c2 :: pr.1, pr.2)) := by
  have base : parseStrBodyAux (fuel + 1) ('\\' :: e :: rest) =
      if e = 'u' then
        (match rest with
         | h1 :: h2 :: h3 :: h4 :: rest3 =>
           match hexVal h1, hexVal h2, hexVal h3, hexVal h4 with
           | some a, some b, some x, some y =>
             (parseStrBodyAux fuel rest3).map
               (fun pr => (Char.ofNat (4096 * a + 256 * b + 16 * x + y) :: pr.1, pr.2))
           | _, _, _, _ => none
         | _ => none)
      else
        match unescCode e with
        | none => none
        | some c2 => (parseStrBodyAux fuel rest).map (fun pr => (c2 :: pr.1, pr.2)) := by
    rw [parseStrBodyAux_cons, if_neg (by decide), if_pos rfl]
  rw [base, if_neg he, hc]

theorem parseStrBodyAux_unicode {h1 h2 h3 h4 : Char} {a b x y : Nat} (e1 : hexVal h1 = some a)
    (e2 : hexVal h2 = some b) (e3 : hexVal h3 = some x) (e4 : hexVal h4 = some y)
    (fuel : Nat) (rest : List Char) :
    parseStrBodyAux (fuel + 1) ('\\' :: 'u' :: h1 :: h2 :: h3 :: h4 :: rest) =
      (parseStrBodyAux fuel rest).map
        (fun pr => (Char.ofNat (4096 * a + 256 * b + 16 * x + y) :: pr.1, pr.2)) := by
  have base : parseStrBodyAux (fuel + 1) ('\\' :: 'u' :: h1 :: h2 :: h3 :: h4 :: rest) =
      match hexVal h1, hexVal h2, hexVal h3, hexVal h4 with
      | some a, some b, some x, some y =>
        (parseStrBodyAux fuel rest).map
          (fun pr => (Char.ofNat (4096 * a + 256 * b + 16 * x + y) :: pr.1, pr.2))
      | _, _, _, _ => none := by
    rw [parseStrBodyAux_cons, if_neg (by decide), if_pos rfl]
    rfl
  rw [e1, e2, e3, e4] at base
  exact base.trans rfl

theorem parseStrBodyAux_round (s : List Char) :
    ∀ (rest : List Char) (fuel : Nat), (escList s ++ '"' :: rest).length ≤ fuel →
      parseStrBodyAux fuel (escList s ++ '"' :: rest) = some (s, rest) := by
  induction s with
  | nil =>
    intro rest fuel hlen
    rw [show escList [] = [] from rfl, List.nil_append] at hlen ⊢
    cases fuel with
    | zero => simp at hlen
    | succ f => rw [parseStrBodyAux_cons, if_pos rfl]
  | cons c s ih =>
    intro rest fuel hlen
    rw [show escList (c :: s) = escChar c ++ escList s from rfl, List.append_assoc] at hlen ⊢
    rw [escChar] at hlen ⊢
    by_cases h1 : c = '"'
    · subst h1
      rw [if_pos rfl] at hlen ⊢
      cases fuel with
      | zero => simp at hlen
      | succ f =>
        rw [show (['\\', '"'] : List Char) ++ (escList s ++ '"' :: rest) =
          '\\' :: '"' :: (escList s ++ '"' :: rest) from rfl]
        rw [parseStrBodyAux_escaped '"' '"' (by decide) (by decide) f]
        rw [ih rest f (by simp at hlen ⊢; omega)]
        rfl
    · rw [if_neg h1] at hlen ⊢
      by_cases h2 : c = '\\'
      · subst h2
        rw [if_pos rfl] at hlen ⊢
        cases fuel with
        | zero => simp at hlen
        | succ f =>
          rw [show (['\\', '\\'] : List Char) ++ (escList s ++ '"' :: rest) =
            '\\' :: '\\' :: (escList s ++ '"' :: rest) from rfl]
          rw [parseStrBodyAux_escaped '\\' '\\' (by decide) (by decide) f]
          rw [ih rest f (by simp at hlen ⊢; omega)]
          rfl
      · rw [if_neg h2] at hlen ⊢
        by_cases h3 : c = '\n'
        · subst h3
          rw [if_pos rfl] at hlen ⊢
          cases fuel with
          | zero => simp at hlen
          | succ f =>
            rw [show (['\\', 'n'] : List Char) ++ (escList s ++ '"' :: rest) =
              '\\' :: 'n' :: (escList s ++ '"' :: rest) from rfl]
            rw [parseStrBodyAux_escaped 'n' '\n' (by decide) (by decide) f]
            rw [ih rest f (by simp at hlen ⊢; omega)]
            rfl
        · rw [if_neg h3] at hlen ⊢
          by_cases h4 : c = '\r'
          · subst h4
            rw [if_pos rfl] at hlen ⊢
            cases fuel with
            | zero => simp at hlen
            | succ f =>
              rw [show (['\\', 'r'] : List Char) ++ (escList s ++ '"' :: rest) =
                '\\' :: 'r' :: (escList s ++ '"' :: rest) from rfl]
              rw [parseStrBodyAux_escaped 'r' '\r' (by decide) (by decide) f]
              rw [ih rest f (by simp at hlen ⊢; omega)]
              rfl
          · rw [if_neg h4] at hlen ⊢
            by_cases h5 : c = '\t'
            · subst h5
              rw [if_pos rfl] at hlen ⊢
              cases fuel with
              | zero => simp at hlen
              | succ f =>
                rw [show (['\\', 't'] : List Char) ++ (escList s ++ '"' :: rest) =
                  '\\' :: 't' :: (escList s ++ '"' :: rest) from rfl]
                rw [parseStrBodyAux_escaped 't' '\t' (by decide) (by decide) f]
                rw [ih rest f (by simp at hlen ⊢; omega)]
                rfl
            · rw [if_neg h5] at hlen ⊢
              by_cases h6 : c = '\x08'
              · subst h6
                rw [if_pos rfl] at hlen ⊢
                cases fuel with
                | zero => simp at hlen
                | succ f =>
                  rw [show (['\\', 'b'] : List Char) ++ (escList s ++ '"' :: rest) =
                    '\\' :: 'b' :: (escList s ++ '"' :: rest) from rfl]
                  rw [parseStrBodyAux_escaped 'b' '\x08' (by decide) (by decide) f]
                  rw [ih rest f (by simp at hlen ⊢; omega)]
                  rfl
              · rw [if_neg h6] at hlen ⊢
                by_cases h7 : c = '\x0c'
                · subst h7
                  rw [if_pos rfl] at hlen ⊢
                  cases fuel with
                  | zero => simp at hlen
                  | succ f =>
                    rw [show (['\\', 'f'] : List Char) ++ (escList s ++ '"' :: rest) =
                      '\\' :: 'f' :: (escList s ++ '"' :: rest) from rfl]
                    rw [parseStrBodyAux_escaped 'f' '\x0c' (by decide) (by decide) f]
                    rw [ih rest f (by simp at hlen ⊢; omega)]
                    rfl
                · rw [if_neg h7] at hlen ⊢
                  by_cases h8 : c.toNat < 32
                  · rw [if_pos h8] at hlen ⊢
                    cases fuel with
                    | zero => simp at hlen
                    | succ f =>
                      have e1 : hexVal (hexDigitChar (c.toNat / 16)) = some (c.toNat / 16) :=
                        hexVal_hexDigitChar _ (by omega)
                      have e2 : hexVal (hexDigitChar (c.toNat % 16)) = some (c.toNat % 16) :=
                        hexVal_hexDigitChar _ (by omega)
                      have e0 : hexVal '0' = some 0 := by decide
                      have harith : Char.ofNat
                          (4096 * 0 + 256 * 0 + 16 * (c.toNat / 16) + c.toNat % 16) = c := by
                        rw [show 4096 * 0 + 256 * 0 + 16 * (c.toNat / 16) + c.toNat % 16 =
                          c.toNat by
                            have := Nat.div_add_mod c.toNat 16
                            omega]
                        exact Char.ofNat_toNat c
                      rw [show (['\\', 'u', '0', '0', hexDigitChar (c.toNat / 16),
                          hexDigitChar (c.toNat % 16)] : List Char) ++
                          (escList s ++ '"' :: rest) =
                        '\\' :: 'u' :: '0' :: '0' :: hexDigitChar (c.toNat / 16) ::
                          hexDigitChar (c.toNat % 16) :: (escList s ++ '"' :: rest) from rfl]
                      rw [parseStrBodyAux_unicode e0 e0 e1 e2 f]
                      rw [ih rest f (by simp at hlen ⊢; omega)]
                      rw [show Option.map
                          (fun pr : List Char × List Char =>
                            (Char.ofNat (4096 * 0 + 256 * 0 + 16 * (c.toNat / 16) +
                              c.toNat % 16) :: pr.1, pr.2)) (some (s, rest)) =
                        some (Char.ofNat (4096 * 0 + 256 * 0 + 16 * (c.toNat / 16) +
                          c.toNat % 16) :: s, rest) from rfl]
                      rw [harith]
                  · rw [if_neg h8] at hlen ⊢
                    cases fuel with
                    | zero => simp at hlen
                    | succ f =>
                      rw [show ([c] : List Char) ++ (escList s ++ '"' :: rest) =
                        c :: (escList s ++ '"' :: rest) from rfl]
                      rw [parseStrBodyAux_plain h1 h2 f]
                      rw [ih rest f (by simp at hlen ⊢; omega)]
                      rfl

theorem parseStrBody_round (s : List Char) (rest : List Char) :
    parseStrBody (escList s ++ '"' :: rest) = some (s, rest) :=
  parseStrBodyAux_round s rest _ le_rfl

theorem parseJStr_round (s : String) (rest : List Char) :
    parseJStr (renderStr s ++ rest) = some (s, rest) := by
  rw [show renderStr s ++ rest = '"' :: (escList s.data ++ '"' :: rest) by
    simp [renderStr, List.append_assoc]]
  rw [parseJStr]
  rw [parseStrBody_round s.data rest]

/-! ### The data emitter round trip (claim C5): objects, posts, the list -/

theorem parseFMEntriesAux_round :
    ∀ (fm : List (String × String)) (rest : List Char) (fuel : Nat), fm ≠ [] →
      fm.length ≤ fuel →
      parseFMEntriesAux fuel (renderFMEntries fm ++ ("\n    \x7d".data ++ rest)) =
        some (fm, rest) := by
  intro fm
  induction fm with
  | nil =>
    intro rest fuel h _
    cases h rfl
  | cons e fm ih =>
    intro rest fuel _ hlen
    obtain ⟨k, v⟩ := e
    cases fuel with
    | zero => simp at hlen
    | succ f =>
      cases fm with
      | nil =>
        simp [renderFMEntries, renderFMEntry, List.append_assoc, parseFMEntriesAux,
          stripLit, parseJStr_round]
      | cons e2 fm2 =>
        have hstep := ih rest f (by simp) (by simp at hlen ⊢; omega)
        simp [renderFMEntries, renderFMEntry, List.append_assoc, parseFMEntriesAux,
          stripLit, parseJStr_round] at hstep ⊢
        rw [hstep]

theorem renderFMEntries_length (fm : List (String × String)) (h : fm ≠ []) :
    fm.length ≤ (renderFMEntries fm).length := by
  induction fm with
  | nil => cases h rfl
  | cons e fm ih =>
    cases fm with
    | nil =>
      obtain ⟨k, v⟩ := e
      simp [renderFMEntries, renderFMEntry]
    | cons e2 fm2 =>
      obtain ⟨k, v⟩ := e
      have := ih (by simp)
      simp only [renderFMEntries, renderFMEntry, List.length_append, List.length_cons] at this ⊢
      omega

theorem parseFM_round (fm : List (String × String)) (rest : List Char) :
    parseFM (renderFM fm ++ rest) = some (fm, rest) := by
  cases fm with
  | nil =>
    rw [show renderFM [] = "\x7b\x7d".data from rfl]
    rw [parseFM, stripLit_pre]
  | cons e fm =>
    rw [show renderFM (e :: fm) =
      "\x7b\n".data ++ renderFMEntries (e :: fm) ++ "\n    \x7d".data from rfl]
    have hne : stripLit "\x7b\x7d".data
        (("\x7b\n".data ++ renderFMEntries (e :: fm) ++ "\n    \x7d".data) ++ rest) = none := by
      rw [show ("\x7b\n".data ++ renderFMEntries (e :: fm) ++ "\n    \x7d".data) ++ rest =
        '\x7b' :: '\n' :: (renderFMEntries (e :: fm) ++ ("\n    \x7d".data ++ rest)) by
          simp [List.append_assoc]]
      exact stripLit_head2_ne (by decide) _ _
    rw [parseFM, hne]
    have hshape : (("\x7b\n".data ++ renderFMEntries (e :: fm) ++ "\n    \x7d".data) ++ rest) =
        "\x7b\n".data ++ (renderFMEntries (e :: fm) ++ ("\n    \x7d".data ++ rest)) := by
      simp [List.append_assoc]
    rw [hshape, stripLit_pre]
    exact parseFMEntriesAux_round (e :: fm) rest _ (by simp)
      (le_trans (renderFMEntries_length _ (by simp)) (by simp))

set_option maxHeartbeats 2000000 in
theorem parsePost_round (p : Post) (rest : List Char) :
    parsePost (renderPost p ++ rest) = some (p, rest) := by
  obtain ⟨slug, title, date, excerpt, body, fm⟩ := p
  simp [renderPost, postHead, parsePost, stripLit, parseJStr_round, parseFM_round,
    List.append_assoc]

theorem renderPost_length (p : Post) : 1 ≤ (renderPost p).length := by
  simp [renderPost, postHead]

theorem parseItemsAux_round :
    ∀ (ps : List Post) (rest : List Char) (fuel : Nat), ps ≠ [] → ps.length ≤ fuel →
      parseItemsAux fuel (renderPostsItems ps ++ ("\n]".data ++ rest)) = some (ps, rest) := by
  intro ps
  induction ps with
  | nil =>
    intro rest fuel h _
    cases h rfl
  | cons p ps ih =>
    intro rest fuel _ hlen
    cases fuel with
    | zero => simp at hlen
    | succ f =>
      cases ps with
      | nil =>
        simp [renderPostsItems, parseItemsAux, parsePost_round, stripLit, List.append_assoc]
      | cons q ps2 =>
        have hstep := ih rest f (by simp) (by simp at hlen ⊢; omega)
        simp [renderPostsItems, parseItemsAux, parsePost_round, stripLit,
          List.append_assoc] at hstep ⊢
        rw [hstep]

theorem renderPostsItems_length (ps : List Post) (h : ps ≠ []) :
    ps.length ≤ (renderPostsItems ps).length := by
  induction ps with
  | nil => cases h rfl
  | cons p ps ih =>
    cases ps with
    | nil =>
      have := renderPost_length p
      simp only [renderPostsItems, List.length_cons, List.length_nil]
      omega
    | cons q ps2 =>
      have h1 := ih (by simp)
      have h2 := renderPost_length p
      simp only [renderPostsItems, List.length_append, List.length_cons] at h1 ⊢
      omega

theorem parsePosts_round (ps : List Post) (rest : List Char) (h : ps ≠ []) :
    parsePosts (renderPosts ps ++ rest) = some (ps, rest) := by
  obtain ⟨p, ps2, rfl⟩ : ∃ q qs, ps = q :: qs := by
    cases ps with
    | nil => cases h rfl
    | cons q qs => exact ⟨q, qs, rfl⟩
  rw [show renderPosts (p :: ps2) =
    "[\n".data ++ renderPostsItems (p :: ps2) ++ "\n]".data from rfl]
  have hne : stripLit "[]".data
      (("[\n".data ++ renderPostsItems (p :: ps2) ++ "\n]".data) ++ rest) = none := by
    rw [show ("[\n".data ++ renderPostsItems (p :: ps2) ++ "\n]".data) ++ rest =
      '[' :: '\n' :: (renderPostsItems (p :: ps2) ++ ("\n]".data ++ rest)) by
        simp [List.append_assoc]]
    exact stripLit_head2_ne (by decide) _ _
  rw [parsePosts, hne]
  have hshape : (("[\n".data ++ renderPostsItems (p :: ps2) ++ "\n]".data) ++ rest) =
      "[\n".data ++ (renderPostsItems (p :: ps2) ++ ("\n]".data ++ rest)) := by
    simp [List.append_assoc]
  rw [hshape, stripLit_pre]
  exact parseItemsAux_round (p :: ps2) rest _ (by simp)
    (le_trans (renderPostsItems_length _ (by simp)) (by simp))

/-- Counterexample to C6 as stated: with the supplied title `$&` the
JavaScript replacement-pattern expansion kicks in: the title tag is *not*
replaced by `<title>$& - Benjamin F. Wilson</title>` (the `$&` expands to
the whole matched `<title>Old</title>`), and the og:title tag does not get
content `$&` either (there it expands to `</head>`). -/
theorem createHtmlPage_dollar_counterexample :
    createHtmlPage "<title>Old</title></head>" (some "$&") (some "D") =
      "<title><title>Old</title> - Benjamin F. Wilson</title>\n    <meta property=\"og:title\" content=\"</head>\" />\n    <meta name=\"description\" content=\"D\" />\n    <meta property=\"og:description\" content=\"D\" />\n  </head>" ∧
    hasSub "<title>$& - Benjamin F. Wilson</title>".data
      (createHtmlPage "<title>Old</title></head>" (some "$&") (some "D")).data = false ∧
    hasSub "<meta property=\"og:title\" content=\"$&\" />".data
      (createHtmlPage "<title>Old</title></head>" (some "$&") (some "D")).data = false := by
  refine ⟨by decide, by decide, by decide⟩

/-! ### The data emitter round trip (claim C5): locating the array in the module -/

theorem pat_nlbr_split {s t : List Char} (hs : s ≠ []) (ht : t ≠ [])
    (h : s ++ t = ['\n', ']']) : s = ['\n'] ∧ t = [']'] := by
  cases s with
  | nil => cases hs rfl
  | cons c s2 =>
    simp only [List.cons_append, List.cons.injEq] at h
    obtain ⟨rfl, h2⟩ := h
    cases s2 with
    | nil =>
      simp only [List.nil_append] at h2
      exact ⟨rfl, h2⟩
    | cons d s3 =>
      simp only [List.cons_append, List.cons.injEq] at h2
      obtain ⟨rfl, h3⟩ := h2
      rcases List.append_eq_nil.mp h3 with ⟨rfl, rfl⟩
      cases ht rfl

theorem nlSafe_of_checks {l : List Char} (h1 : hasSub ['\n', ']'] l = false)
    (h2 : l.getLast? ≠ some '\n') : nlSafe l :=
  ⟨not_occurs_of_hasSub_false h1, h2⟩

theorem nlSafe_append {u v : List Char} (hu : nlSafe u) (hv : nlSafe v) :
    nlSafe (u ++ v) := by
  constructor
  · intro hocc
    rcases occurs_decomp hocc with h | h | ⟨s, t, hpat, hs, ht, ⟨x, rfl⟩, ⟨y, rfl⟩⟩
    · exact hu.1 h
    · exact hv.1 h
    · obtain ⟨rfl, rfl⟩ := pat_nlbr_split hs ht hpat.symm
      exact hu.2 (List.getLast?_concat x)
  · cases v with
    | nil =>
      rw [List.append_nil]
      exact hu.2
    | cons c v2 =>
      rw [List.getLast?_append_of_ne_nil _ (by simp)]
      exact hv.2

theorem nlSafe_of_no_nl {l : List Char} (h : '\n' ∉ l) : nlSafe l := by
  constructor
  · rintro ⟨x, y, rfl⟩
    exact h (by simp)
  · intro hl
    exact h (List.mem_of_mem_getLast? (by simp [Option.mem_def, hl]))

theorem hexDigitChar_ne_nl (n : Nat) (h : n < 16) : hexDigitChar n ≠ '\n' := by
  interval_cases n <;> decide

theorem no_nl_escChar (c : Char) : '\n' ∉ escChar c := by
  rw [escChar]
  split_ifs with h1 h2 h3 h4 h5 h6 h7 h8
  · decide
  · decide
  · decide
  · decide
  · decide
  · decide
  · decide
  · intro hm
    simp only [List.mem_cons, List.not_mem_nil, or_false] at hm
    rcases hm with h | h | h | h | h | h
    · exact absurd h (by decide)
    · exact absurd h (by decide)
    · exact absurd h (by decide)
    · exact absurd h (by decide)
    · exact hexDigitChar_ne_nl _ (by omega) h.symm
    · exact hexDigitChar_ne_nl _ (by omega) h.symm
  · intro hm
    rw [List.mem_singleton] at hm
    exact h8 (hm ▸ (by decide : ('\n').toNat < 32))

theorem no_nl_escList (s : List Char) : '\n' ∉ escList s := by
  induction s with
  | nil => simp [escList]
  | cons c rest ih =>
    rw [escList]
    intro hm
    rcases List.mem_append.mp hm with h | h
    · exact no_nl_escChar c h
    · exact ih h

theorem nlSafe_renderStr (s : String) : nlSafe (renderStr s) := by
  apply nlSafe_of_no_nl
  rw [renderStr]
  intro hm
  rcases List.mem_cons.mp hm with h | h
  · exact absurd h (by decide)
  · rcases List.mem_append.mp h with h2 | h2
    · exact no_nl_escList _ h2
    · exact absurd h2 (by decide)

theorem nlSafe_entry (e : String × String) : nlSafe ('\n' :: renderFMEntry e) := by
  obtain ⟨k, v⟩ := e
  rw [show ('\n' :: renderFMEntry (k, v)) =
    "\n      ".data ++ (renderStr k ++ (": ".data ++ renderStr v)) by
      simp [renderFMEntry, List.append_assoc]]
  exact nlSafe_append (nlSafe_of_checks (by decide) (by decide))
    (nlSafe_append (nlSafe_renderStr k)
      (nlSafe_append (nlSafe_of_checks (by decide) (by decide)) (nlSafe_renderStr v)))

theorem nlSafe_entries (e : String × String) (fm : List (String × String)) :
    nlSafe ('\n' :: renderFMEntries (e :: fm)) := by
  induction fm generalizing e with
  | nil => exact nlSafe_entry e
  | cons e2 fm2 ih =>
    rw [show ('\n' :: renderFMEntries (e :: e2 :: fm2)) =
      ('\n' :: renderFMEntry e) ++ ([','] ++ ('\n' :: renderFMEntries (e2 :: fm2))) by
        simp [renderFMEntries, List.append_assoc]]
    exact nlSafe_append (nlSafe_entry e)
      (nlSafe_append (nlSafe_of_checks (by decide) (by decide)) (ih e2))

theorem nlSafe_renderFM (fm : List (String × String)) : nlSafe (renderFM fm) := by
  cases fm with
  | nil => exact nlSafe_of_checks (by decide) (by decide)
  | cons e fm2 =>
    rw [show renderFM (e :: fm2) =
      ['\x7b'] ++ (('\n' :: renderFMEntries (e :: fm2)) ++ "\n    \x7d".data) by
        simp [renderFM, List.append_assoc]]
    exact nlSafe_append (nlSafe_of_checks (by decide) (by decide))
      (nlSafe_append (nlSafe_entries e fm2) (nlSafe_of_checks (by decide) (by decide)))

theorem nlSafe_renderPost (p : Post) : nlSafe (renderPost p) := by
  rw [renderPost]
  refine nlSafe_append ?_ (nlSafe_of_checks (by decide) (by decide))
  refine nlSafe_append ?_ (nlSafe_renderFM _)
  refine nlSafe_append ?_ (nlSafe_of_checks (by decide) (by decide))
  refine nlSafe_append ?_ (nlSafe_renderStr _)
  refine nlSafe_append ?_ (nlSafe_of_checks (by decide) (by decide))
  refine nlSafe_append ?_ (nlSafe_renderStr _)
  refine nlSafe_append ?_ (nlSafe_of_checks (by decide) (by decide))
  refine nlSafe_append ?_ (nlSafe_renderStr _)
  refine nlSafe_append ?_ (nlSafe_of_checks (by decide) (by decide))
  refine nlSafe_append ?_ (nlSafe_renderStr _)
  refine nlSafe_append ?_ (nlSafe_of_checks (by decide) (by decide))
  refine nlSafe_append ?_ (nlSafe_renderStr _)
  exact nlSafe_of_checks (by decide) (by decide)

theorem nlSafe_cons_nl {X : List Char} {c : Char} {r : List Char}
    (hX : nlSafe X) (hshape : X = c :: r) (hc : c ≠ ']') : nlSafe ('\n' :: X) := by
  constructor
  · rintro ⟨x, y, hxy⟩
    cases x with
    | nil =>
      rw [List.nil_append, List.cons_append, List.cons_append, List.nil_append] at hxy
      injection hxy with h1 h2
      rw [hshape] at h2
      injection h2 with h3 h4
      exact hc h3
    | cons d x2 =>
      simp only [List.cons_append, List.cons.injEq] at hxy
      exact hX.1 ⟨x2, y, hxy.2⟩
  · rw [hshape, List.getLast?_cons_cons]
    have h2 := hX.2
    rw [hshape] at h2
    exact h2

theorem occurs_nlbr_snoc {u : List Char} (hu : nlSafe u) :
    ¬ Occurs ['\n', ']'] (u ++ ['\n']) := by
  intro hocc
  rcases occurs_decomp hocc with h | h | ⟨s, t, hpat, hs, ht, ⟨x, hx⟩, ⟨y, hy⟩⟩
  · exact hu.1 h
  · obtain ⟨a, b, hab⟩ := h
    have hlen := congrArg List.length hab
    simp only [List.length_append, List.length_cons, List.length_nil] at hlen
    omega
  · obtain ⟨rfl, rfl⟩ := pat_nlbr_split hs ht hpat.symm
    rw [List.cons_append, List.nil_append] at hy
    injection hy with h1 h2
    exact absurd h1 (by decide)

theorem items_head (q : Post) (ps : List Post) :
    ∃ r, renderPostsItems (q :: ps) = ' ' :: r := by
  cases ps with
  | nil => exact ⟨_, rfl⟩
  | cons q2 ps2 => exact ⟨_, rfl⟩

theorem nlSafe_items (p : Post) (ps : List Post) : nlSafe (renderPostsItems (p :: ps)) := by
  induction ps generalizing p with
  | nil => exact nlSafe_renderPost p
  | cons q ps2 ih =>
    obtain ⟨r, hr⟩ := items_head q ps2
    rw [show renderPostsItems (p :: q :: ps2) =
      renderPost p ++ ([','] ++ ('\n' :: renderPostsItems (q :: ps2))) by
        simp [renderPostsItems, List.append_assoc]]
    exact nlSafe_append (nlSafe_renderPost p)
      (nlSafe_append (nlSafe_of_checks (by decide) (by decide))
        (nlSafe_cons_nl (ih q) hr (by decide)))

theorem getPostsFromModule_round (ps : List Post) (h : ps ≠ []) :
    getPostsFromModule (emitPostsModule ps) = some ps := by
  obtain ⟨p, ps2, rfl⟩ : ∃ q qs, ps = q :: qs := by
    cases ps with
    | nil => cases h rfl
    | cons q qs => exact ⟨q, qs, rfl⟩
  have hu : nlSafe (['['] ++ ('\n' :: renderPostsItems (p :: ps2))) := by
    obtain ⟨r, hr⟩ := items_head p ps2
    exact nlSafe_append (nlSafe_of_checks (by decide) (by decide))
      (nlSafe_cons_nl (nlSafe_items p ps2) hr (by decide))
  have hu2 : nlSafe ('[' :: '\n' :: renderPostsItems (p :: ps2)) := hu
  have hsplit1 : splitOnFirst postsMarker
      (moduleHeader ++ postsMarker ++ renderPosts (p :: ps2) ++ moduleFooter) =
      some (moduleHeader, renderPosts (p :: ps2) ++ moduleFooter) := by
    rw [show moduleHeader ++ postsMarker ++ renderPosts (p :: ps2) ++ moduleFooter =
      moduleHeader ++ (postsMarker ++ (renderPosts (p :: ps2) ++ moduleFooter)) by
        simp [List.append_assoc]]
    exact splitOnFirst_append' (by decide) _ _
      (not_occurs_of_hasSub_false (by decide))
  have hsplit2 : splitOnFirst ['\n', ']'] (renderPosts (p :: ps2) ++ moduleFooter) =
      some ('[' :: '\n' :: renderPostsItems (p :: ps2), moduleFooter) := by
    rw [show renderPosts (p :: ps2) ++ moduleFooter =
      ('[' :: '\n' :: renderPostsItems (p :: ps2)) ++ (['\n', ']'] ++ moduleFooter) by
        simp [renderPosts, List.append_assoc]]
    refine splitOnFirst_append' (by decide) _ _ ?_
    rw [show (['\n', ']'] : List Char).dropLast = ['\n'] from rfl]
    exact occurs_nlbr_snoc hu2
  have hparse : parsePosts (('[' :: '\n' :: renderPostsItems (p :: ps2)) ++ ['\n', ']']) =
      some (p :: ps2, []) := by
    rw [show ('[' :: '\n' :: renderPostsItems (p :: ps2)) ++ ['\n', ']'] =
      renderPosts (p :: ps2) ++ ([] : List Char) by simp [renderPosts, List.append_assoc]]
    exact parsePosts_round _ [] (by simp)
  simp only [getPostsFromModule, show (emitPostsModule (p :: ps2)).data =
    moduleHeader ++ postsMarker ++ renderPosts (p :: ps2) ++ moduleFooter from rfl,
    hsplit1, hsplit2, hparse]

theorem findBySlug_self {ps : List Post} {p : Post} (hmem : p ∈ ps)
    (hnd : (ps.map Post.slug).Nodup) : findBySlug ps p.slug = some p := by
  induction ps with
  | nil => cases hmem
  | cons q ps2 ih =>
    rcases List.mem_cons.mp hmem with rfl | hmem2
    · rw [findBySlug, List.find?_cons_of_pos _ (by simp)]
    · have hne : ¬ (q.slug = p.slug) := by
        intro he
        have hm : p.slug ∈ ps2.map Post.slug := List.mem_map_of_mem _ hmem2
        rw [← he] at hm
        exact (List.nodup_cons.mp (by simpa using hnd)).1 hm
      rw [findBySlug, List.find?_cons_of_neg _ (by simpa using hne)]
      exact ih hmem2 (List.nodup_cons.mp (by simpa using hnd)).2


/-! ### Slug uniqueness: `basename(·, ".md")` is injective on distinct names -/

theorem endsWithMd_iff (s : String) :
    endsWithMd s = true ↔ ∃ pre, s.data = pre ++ ".md".data := by
  rw [endsWithMd, List.isSuffixOf, isPre_iff]
  constructor
  · rintro ⟨t, ht⟩
    refine ⟨t.reverse, ?_⟩
    have h2 := congrArg List.reverse ht
    simpa using h2
  · rintro ⟨pre, hp⟩
    exact ⟨pre.reverse, by simp [hp]⟩

theorem basenameMd_strip {a : String} {pa : List Char} (hpa : a.data = pa ++ ".md".data) :
    basenameMd a = String.mk pa := by
  by_cases hmd : a = ".md"
  · have hnil : pa = [] := by
      subst hmd
      have hlen := congrArg List.length hpa
      rw [List.length_append] at hlen
      exact List.length_eq_zero.mp (by omega)
    subst hnil
    rw [hmd, show basenameMd ".md" = "" from rfl]
  · have hend : endsWithMd a = true := (endsWithMd_iff a).mpr ⟨pa, hpa⟩
    rw [basenameMd, if_neg hmd, if_pos hend, hpa,
      show (pa ++ ".md".data).length - 3 = pa.length by simp, List.take_left]

theorem basenameMd_inj {a b : String} (ha : endsWithMd a = true) (hb : endsWithMd b = true)
    (h : basenameMd a = basenameMd b) : a = b := by
  obtain ⟨pa, hpa⟩ := (endsWithMd_iff a).mp ha
  obtain ⟨pb, hpb⟩ := (endsWithMd_iff b).mp hb
  rw [basenameMd_strip hpa, basenameMd_strip hpb] at h
  have hpp : pa = pb := congrArg String.data h
  have hdata : a.data = b.data := by rw [hpa, hpb, hpp]
  cases a with
  | mk da =>
    cases b with
    | mk db => exact congrArg String.mk hdata

theorem nodup_filterMap_of_mem {α β : Type} (f : α → Option β) :
    ∀ l : List α, l.Nodup →
      (∀ a ∈ l, ∀ a2 ∈ l, ∀ b, f a = some b → f a2 = some b → a = a2) →
      (l.filterMap f).Nodup := by
  intro l
  induction l with
  | nil =>
    intro _ _
    simp
  | cons a l ih =>
    intro hnd hinj
    cases hfa : f a with
    | none =>
      simp only [List.filterMap_cons, hfa]
      exact ih (List.nodup_cons.mp hnd).2
        (fun x hx y hy b h1 h2 =>
          hinj x (List.mem_cons_of_mem _ hx) y (List.mem_cons_of_mem _ hy) b h1 h2)
    | some b =>
      simp only [List.filterMap_cons, hfa]
      rw [List.nodup_cons]
      refine ⟨?_, ih (List.nodup_cons.mp hnd).2
        (fun x hx y hy b2 h1 h2 =>
          hinj x (List.mem_cons_of_mem _ hx) y (List.mem_cons_of_mem _ hy) b2 h1 h2)⟩
      intro hbmem
      obtain ⟨a2, ha2, hfa2⟩ := List.mem_filterMap.mp hbmem
      have hae : a = a2 :=
        hinj a (List.mem_cons_self a l) a2 (List.mem_cons_of_mem _ ha2) b hfa hfa2
      exact (List.nodup_cons.mp hnd).1 (hae ▸ ha2)

theorem collectPosts_slugs_nodup (dir : List (String × String)) (buildDate : String)
    (h : (dir.map Prod.fst).Nodup) :
    ((collectPosts dir buildDate).map Post.slug).Nodup := by
  have hn2 : (sortFileNames ((dir.map Prod.fst).filter endsWithMd)).Nodup :=
    (List.perm_insertionSort _ _).symm.nodup (h.filter _)
  have hmd : ∀ n ∈ sortFileNames ((dir.map Prod.fst).filter endsWithMd),
      endsWithMd n = true := by
    intro n hn
    have hmem2 : n ∈ (dir.map Prod.fst).filter endsWithMd :=
      ((List.perm_insertionSort _ _).mem_iff).mp hn
    exact (List.mem_filter.mp hmem2).2
  have hperm : ((collectPosts dir buildDate).map Post.slug).Perm
      (((sortFileNames ((dir.map Prod.fst).filter endsWithMd)).filterMap
        (fun n => (lookupFs dir n).map (fun c => mkPost n c buildDate))).map Post.slug) :=
    (List.perm_insertionSort _ _).map _
  refine hperm.symm.nodup ?_
  rw [List.map_filterMap]
  refine nodup_filterMap_of_mem _ _ hn2 ?_
  intro a ha a2 ha2 b h1 h2
  have hb1 : basenameMd a = b := by
    cases hc : lookupFs dir a with
    | none => simp [hc] at h1
    | some c =>
      simp [hc] at h1
      exact h1
  have hb2 : basenameMd a2 = b := by
    cases hc : lookupFs dir a2 with
    | none => simp [hc] at h2
    | some c =>
      simp [hc] at h2
      exact h2
  exact basenameMd_inj (hmd a ha) (hmd a2 ha2) (hb1.trans hb2.symm)

/-- Claim C5: round-trip fidelity of the data emitter, for directories with
pairwise-distinct file names (the filesystem guarantee): for every record in
the collector's output, parsing the emitted module back and looking up that
record's `slug` returns a record with exactly the original `title`, `date`,
`excerpt` and `content`; slug uniqueness follows because
`path.basename(·, ".md")` is injective on distinct `.md`-suffixed names. -/
theorem emit_roundtrip (dir : List (String × String)) (buildDate : String) (p : Post)
    (hmem : p ∈ collectPosts dir buildDate)
    (hnames : (dir.map Prod.fst).Nodup) :
    ∃ qs q, getPostsFromModule (buildPostsRun dir buildDate) = some qs ∧
      findBySlug qs p.slug = some q ∧
      q.title = p.title ∧ q.date = p.date ∧ q.excerpt = p.excerpt ∧ q.content = p.content := by
  refine ⟨collectPosts dir buildDate, p, ?_,
    findBySlug_self hmem (collectPosts_slugs_nodup dir buildDate hnames), rfl, rfl, rfl, rfl⟩
  exact getPostsFromModule_round _ (List.ne_nil_of_mem hmem)

/-- Witness for C5 on a concrete one-file directory. -/
theorem emit_roundtrip_witness :
    ((⟨"a", "a", "2025-01-02", "x...", "x", []⟩ : Post) ∈
        collectPosts [("a.md", "x")] "2025-01-02") ∧
    (([(("a.md" : String), ("x" : String))].map Prod.fst).Nodup) ∧
    ∃ qs q, getPostsFromModule (buildPostsRun [("a.md", "x")] "2025-01-02") = some qs ∧
      findBySlug qs (⟨"a", "a", "2025-01-02", "x...", "x", []⟩ : Post).slug = some q ∧
      q.title = "a" ∧ q.date = "2025-01-02" ∧ q.excerpt = "x..." ∧ q.content = "x" :=
  ⟨by decide, by decide,
    emit_roundtrip [("a.md", "x")] "2025-01-02" ⟨"a", "a", "2025-01-02", "x...", "x", []⟩
      (by decide) (by decide)⟩
